import Mathlib

/-!
Verification of the botoease storage/sync library.

The Python sources under `src/botoease/` are shallowly embedded:

* `ignore.py`      — `load_ignore_patterns`, `is_ignored` (with a model of
  Python's `fnmatch.fnmatch` on POSIX, where `os.path.normcase` is the
  identity);
* `local_storage.py` — `LocalStorage.upload/delete/sync_folder`;
* `s3_storage.py`  — `S3Storage.upload/delete/sync_folder`;
* `storage.py`     — the `Storage` facade.

Filesystem trees are modelled as a list of `(relative path, size)` file
entries plus a list of existing directory paths; an S3 bucket is a list of
`(key, size)` pairs in listing order.  File contents beyond the size are not
modelled (the sync engine compares sizes only).  Walk/listing order is the
list order.  OS errors that the code can hit (`os.makedirs` across an
existing file, `os.remove` of a directory) are modelled as `Except` errors.
-/

deriving instance DecidableEq for Except

/-! ## Glob matching (`fnmatch.fnmatch` on POSIX) -/

/-- One item of a `[...]` character class: a single character or a range. -/
inductive ClsItem where
  | single (c : Char)
  | range (lo hi : Char)
deriving DecidableEq, Repr

/-- One token of a translated glob pattern (`fnmatch.translate`). -/
inductive Tok where
  | lit (c : Char)
  | any
  | star
  | cls (neg : Bool) (items : List ClsItem)
deriving DecidableEq, Repr

/-- Split a character list at the first `']'`, returning the part before it
and the part after it; `none` if there is no `']'`. -/
def findClose : List Char → Option (List Char × List Char)
  | [] => none
  | ']' :: rest => some ([], rest)
  | c :: rest => (findClose rest).map (fun p => (c :: p.1, p.2))

/-- Scan the body of a `[...]` class (the characters after `'['`), following
`fnmatch.translate`: a leading `'!'` is part of the class, and a `']'`
immediately after the optional `'!'` is a literal member. -/
def scanCls : List Char → Option (List Char × List Char)
  | '!' :: ']' :: rest => (findClose rest).map (fun p => ('!' :: ']' :: p.1, p.2))
  | '!' :: rest => (findClose rest).map (fun p => ('!' :: p.1, p.2))
  | ']' :: rest => (findClose rest).map (fun p => (']' :: p.1, p.2))
  | rest => findClose rest

/-- Turn the raw contents of a class into items; `a-b` between two characters
is a range, a leading or trailing `-` is a literal. -/
def itemsOf : List Char → List ClsItem
  | [] => []
  | a :: '-' :: b :: rest => ClsItem.range a b :: itemsOf rest
  | a :: rest => ClsItem.single a :: itemsOf rest

/-- Parse a complete `[...]` class body: negation flag, items, and the
remaining pattern after the closing `']'`; `none` when the class is unclosed
(then `'['` is a literal, as in `fnmatch.translate`). -/
def parseCls (cs : List Char) : Option (Bool × List ClsItem × List Char) :=
  match scanCls cs with
  | none => none
  | some (content, rest) =>
    match content with
    | '!' :: body => some (true, itemsOf body, rest)
    | body => some (false, itemsOf body, rest)

/-- Tokenise a glob pattern.  The fuel argument is an upper bound on the
number of characters still to be consumed (every step consumes at least one
character, so starting from the length it never runs out). -/
def parseGlobAux : Nat → List Char → List Tok
  | 0, _ => []
  | _ + 1, [] => []
  | fuel + 1, '*' :: rest => Tok.star :: parseGlobAux fuel rest
  | fuel + 1, '?' :: rest => Tok.any :: parseGlobAux fuel rest
  | fuel + 1, '[' :: rest =>
    match parseCls rest with
    | some (neg, items, rest') => Tok.cls neg items :: parseGlobAux fuel rest'
    | none => Tok.lit '[' :: parseGlobAux fuel rest
  | fuel + 1, c :: rest => Tok.lit c :: parseGlobAux fuel rest

def parseGlob (cs : List Char) : List Tok := parseGlobAux cs.length cs

/-- Does character `c` belong to the class? -/
def matchCls (neg : Bool) (items : List ClsItem) (c : Char) : Bool :=
  let base := items.any (fun it =>
    match it with
    | ClsItem.single a => a == c
    | ClsItem.range a b => decide (a ≤ c) && decide (c ≤ b))
  if neg then !base else base

/-- Match a token list against a string; `star` matches any (possibly empty)
sequence of characters, as the regex `.*` produced by `fnmatch.translate`
(with `re.DOTALL`, so `/` is also matched). -/
def matchTok : List Tok → List Char → Bool
  | [], s => s.isEmpty
  | Tok.lit _ :: _, [] => false
  | Tok.lit c :: ps, d :: s => c == d && matchTok ps s
  | Tok.any :: _, [] => false
  | Tok.any :: ps, _ :: s => matchTok ps s
  | Tok.cls _ _ :: _, [] => false
  | Tok.cls neg items :: ps, d :: s => matchCls neg items d && matchTok ps s
  | Tok.star :: ps, s => s.tails.any (fun t => matchTok ps t)

/-- `fnmatch.fnmatch(path, pattern)` on a POSIX host (`os.path.normcase` is
the identity there, so matching is case-sensitive). -/
def fnmatch (path pattern : String) : Bool :=
  matchTok (parseGlob pattern.data) path.data

/-! ## `ignore.py` -/

/-- Python's `str.endswith`, on the underlying character lists (kept
kernel-computable). -/
def strEndsWith (s suffix : String) : Bool :=
  suffix.data.isSuffixOf s.data

/-- Python's `str.startswith`, on the underlying character lists. -/
def strStartsWith (s pre : String) : Bool :=
  pre.data.isPrefixOf s.data

/-- `is_ignored(path, patterns)`: a pattern matches either as a shell glob on
the whole path, or — when it ends in `/` — as a literal string prefix.  The
Python code iterates a `set`; membership in the result does not depend on
the order, so the patterns are kept as a list. -/
def is_ignored (path : String) (patterns : List String) : Bool :=
  patterns.any (fun pattern =>
    fnmatch path pattern || (strEndsWith pattern "/" && strStartsWith path pattern))

/-- `load_ignore_patterns(base_path, ignore_file, extra_patterns)`: the union
of the patterns read from the ignore file at the source root (given here as
`filePatterns`, abstracting the file read) and the caller's extra patterns
(`None` becomes the empty set). -/
def load_ignore_patterns (filePatterns : List String) (extra : Option (List String)) :
    List String :=
  extra.getD [] ++ filePatterns

/-! ## Filesystem and bucket model -/

/-- A directory tree: file entries as `(relative POSIX path, size)` in walk
order, plus the relative paths of the directories that exist in the tree
(beyond the root itself, which always exists once the tree does). -/
structure FS where
  files : List (String × Nat)
  dirs : List String
deriving DecidableEq, Repr

/-- An S3 bucket: `(key, size)` pairs in listing order. -/
abbrev Bucket := List (String × Nat)

/-- The error taxonomy of the embedded code: `ValueError` for a bad mode,
`FileNotFoundError` for a missing source, `ValueError` subcases for the
upload validations, and OS-level errors (`os.makedirs` across an existing
file, `shutil.copy2`/`os.remove` onto a directory). -/
inductive Err where
  | invalidArgument
  | notFound
  | sizeExceeded
  | unsupportedType
  | osError
deriving DecidableEq, Repr

/-- One executed side effect of a sync pass: a transfer or a removal,
recorded with the relative path it was executed for. -/
inductive TraceOp where
  | copyOp (rel : String)
  | deleteOp (rel : String)
deriving DecidableEq, Repr

/-- The action plan returned by `sync_folder`. -/
structure SyncPlan where
  copy : List String
  delete : List String
deriving DecidableEq, Repr

/-- First-match lookup in an association list of paths.  Directory walks and
bucket listings yield each path at most once, so this matches the Python
`dict` built from them. -/
def lookupRel : List (String × Nat) → String → Option Nat
  | [], _ => none
  | e :: es, r => if e.1 = r then some e.2 else lookupRel es r

/-- Store `sz` under `rel`: overwrite the entry if the path is present,
otherwise append it (a fresh file appears at the end of the walk model). -/
def setFile (l : List (String × Nat)) (rel : String) (sz : Nat) : List (String × Nat) :=
  if (lookupRel l rel).isSome then
    l.map (fun e => if e.1 = rel then (rel, sz) else e)
  else
    l ++ [(rel, sz)]

/-- Remove the file stored under `rel` (`os.remove`). -/
def removeFile (l : List (String × Nat)) (rel : String) : List (String × Nat) :=
  l.filter (fun e => e.1 ≠ rel)

/-- Split a character list on `/` (the groups between the separators). -/
def splitOnSlash : List Char → List (List Char)
  | [] => [[]]
  | c :: rest =>
    match splitOnSlash rest with
    | [] => [[]]
    | g :: gs => if c = '/' then [] :: g :: gs else (c :: g) :: gs

/-- Join path components with `/`. -/
def joinSlash : List (List Char) → List Char
  | [] => []
  | [g] => g
  | g :: gs => g ++ '/' :: joinSlash gs

/-- `os.path.basename` of a relative POSIX path. -/
def baseName (rel : String) : String :=
  String.mk ((splitOnSlash rel.data).getLastD [])

/-- The chain of directories `os.makedirs(os.path.dirname(root/rel))` has to
ensure below the destination root: for `a/b/c` this is `[a, a/b]`, outermost
first; for a top-level file it is empty (the root itself already exists). -/
def dirChain (rel : String) : List String :=
  let parts := splitOnSlash rel.data
  (List.range (parts.length - 1)).map
    (fun i => String.mk (joinSlash (parts.take (i + 1))))

/-- Membership test on a list of strings (kept kernel-computable). -/
def memStr (x : String) (l : List String) : Bool :=
  l.any (fun y => y = x)

/-- `os.path.exists` inside a tree: the path is a file or a directory. -/
def fsExists (fs : FS) (rel : String) : Bool :=
  (lookupRel fs.files rel).isSome || memStr rel fs.dirs

/-- Create the given directories in order, `mkdir -p` style: an existing
directory is fine, an existing *file* on the chain raises
(`NotADirectoryError`/`FileExistsError`). -/
def mkdirsChain (fs : FS) : List String → Except Err FS
  | [] => Except.ok fs
  | d :: rest =>
    if (lookupRel fs.files d).isSome then Except.error Err.osError
    else if memStr d fs.dirs then mkdirsChain fs rest
    else mkdirsChain { fs with dirs := fs.dirs ++ [d] } rest

/-- `os.makedirs(os.path.dirname(root/rel), exist_ok=True)`. -/
def osMakedirs (fs : FS) (rel : String) : Except Err FS :=
  mkdirsChain fs (dirChain rel)

/-- `shutil.copy2(src, root/rel)` for a source file of size `sz`: if the
destination path is an existing directory, the file is copied *into* it
under the source's base name (and copying onto a directory at that inner
path raises); otherwise the destination file is created or overwritten. -/
def shutilCopy2 (fs : FS) (rel : String) (sz : Nat) : Except Err FS :=
  if memStr rel fs.dirs then
    if memStr (rel ++ "/" ++ baseName rel) fs.dirs then Except.error Err.osError
    else Except.ok { fs with files := setFile fs.files (rel ++ "/" ++ baseName rel) sz }
  else Except.ok { fs with files := setFile fs.files rel sz }

/-! ## Upload and delete primitives -/

/-- Python truthiness of the `max_size` argument: `None` and `0` are falsy,
so `max_size=0` disables the size check. -/
def truthyNat : Option Nat → Bool
  | none => false
  | some n => decide (n ≠ 0)

/-- Python truthiness of the `allowed_types` argument: `None` and an empty
collection are falsy. -/
def truthyList {α : Type} : Option (List α) → Bool
  | none => false
  | some [] => false
  | some (_ :: _) => true

/-- `os.path.splitext(p)[1]`: the extension (with its dot) of the last path
component; leading dots of the component do not start an extension. -/
def splitextExt (p : String) : String :=
  let cs := (splitOnSlash p.data).getLastD []
  let rest := cs.drop (cs.takeWhile (fun c => c = '.')).length
  if rest.any (fun c => c = '.') then
    "." ++ String.mk ((rest.reverse.takeWhile (fun c => c ≠ '.')).reverse)
  else ""

/-- The name the upload stores the file under, shared by both backends:
the explicit `filename` (Python-falsy values replaced by the source's base
name), then the UUID substitution, then the date bucketing.  The generated
UUID string and the `YYYY/MM/DD` date path are environment inputs. -/
def resolveUploadName (filepath : String) (filename : Option String)
    (use_uuid use_date_structure : Bool) (uuidStr datePath : String) : String :=
  let fn0 :=
    match filename with
    | none => baseName filepath
    | some f => if f = "" then baseName filepath else f
  let fn1 := if use_uuid then uuidStr ++ splitextExt fn0 else fn0
  if use_date_structure then datePath ++ "/" ++ baseName fn1 else fn1

/-- `LocalStorage.upload`.  The source file is described by its existence
flag, path, size and guessed MIME type (`mimetypes.guess_type`); the
returned string is the resolved stored filename. -/
def LocalStorage.upload (folder : FS) (fileExists : Bool) (filepath : String)
    (size : Nat) (mime : Option String) (filename : Option String)
    (use_uuid use_date_structure : Bool) (uuidStr datePath : String)
    (allowed_types : Option (List (Option String))) (max_size : Option Nat) :
    Except Err (String × FS) :=
  if !fileExists then Except.error Err.notFound
  else if truthyNat max_size && decide (size > max_size.getD 0) then
    Except.error Err.sizeExceeded
  else if truthyList allowed_types &&
      !((allowed_types.getD []).any (fun t => t = mime)) then
    Except.error Err.unsupportedType
  else do
    let fn := resolveUploadName filepath filename use_uuid use_date_structure uuidStr datePath
    let f1 ← osMakedirs folder fn
    let f2 ← shutilCopy2 f1 fn size
    Except.ok (fn, f2)

/-- `S3Storage.upload`.  The checksum verification of `safe_upload` compares
the ETag of the object just stored with the local MD5; content hashes are
outside this model, and `head_object` on the key just written succeeds, so
the verification step passes. -/
def S3Storage.upload (bucket : Bucket) (fileExists : Bool) (filepath : String)
    (size : Nat) (mime : Option String) (filename : Option String)
    (use_uuid use_date_structure : Bool) (uuidStr datePath : String)
    (allowed_types : Option (List (Option String))) (max_size : Option Nat)
    (safe_upload : Bool) : Except Err (String × Bucket) :=
  if !fileExists then Except.error Err.notFound
  else if truthyNat max_size && decide (size > max_size.getD 0) then
    Except.error Err.sizeExceeded
  else if truthyList allowed_types &&
      !((allowed_types.getD []).any (fun t => t = mime)) then
    Except.error Err.unsupportedType
  else
    let fn := resolveUploadName filepath filename use_uuid use_date_structure uuidStr datePath
    Except.ok (fn, setFile bucket fn size)

/-- `LocalStorage.delete`: `os.path.exists`, then `os.remove`.  A name that
is an existing directory makes `os.remove` raise `IsADirectoryError`. -/
def LocalStorage.delete (folder : FS) (filename : String) : Except Err (Bool × FS) :=
  if fsExists folder filename then
    if (lookupRel folder.files filename).isSome then
      Except.ok (true, { folder with files := removeFile folder.files filename })
    else Except.error Err.osError
  else Except.ok (false, folder)

/-- `S3Storage.delete`: `delete_object` succeeds whether or not the key
exists, and the method returns `True` unconditionally. -/
def S3Storage.delete (bucket : Bucket) (filename : String) : Bool × Bucket :=
  (true, bucket.filter (fun e => e.1 ≠ filename))

/-! ## The sync engines -/

/-- The change-detection test of the push-style walks:
`rel not in dst_meta or dst_meta[rel] != size`. -/
def copyCond (meta : List (String × Nat)) (rel : String) (sz : Nat) : Bool :=
  match lookupRel meta rel with
  | none => true
  | some s => decide (s ≠ sz)

/-- The `src_files` / `local_files` / `local_keys` set each sync loop
accumulates: exactly the non-ignored source paths, since the loop adds every
walked path right after the ignore check. -/
def seenKeys (srcFiles : List (String × Nat)) (ignore : List String) : List String :=
  (srcFiles.filter (fun e => !is_ignored e.1 ignore)).map Prod.fst

/-- The source walk of `LocalStorage.sync_folder` (lines 137–153): classify
against the destination snapshot, and in a live run create the destination
directories and copy immediately. -/
def localWalk (dstMeta : List (String × Nat)) (ignore : List String) (dry : Bool) :
    List (String × Nat) → FS → Except Err (List String × FS × List TraceOp)
  | [], dst => Except.ok ([], dst, [])
  | e :: rest, dst =>
    if is_ignored e.1 ignore then localWalk dstMeta ignore dry rest dst
    else if copyCond dstMeta e.1 e.2 then
      if dry then do
        let (cs, d, tr) ← localWalk dstMeta ignore dry rest dst
        Except.ok (e.1 :: cs, d, tr)
      else do
        let dst1 ← osMakedirs dst e.1
        let dst2 ← shutilCopy2 dst1 e.1 e.2
        let (cs, d, tr) ← localWalk dstMeta ignore dry rest dst2
        Except.ok (e.1 :: cs, d, TraceOp.copyOp e.1 :: tr)
    else localWalk dstMeta ignore dry rest dst

/-- The delete pass shared by all sync variants: walk the recorded
destination entries, and delete (in a live run) those neither seen in the
source nor ignored.  `remove` is the backend's removal primitive. -/
def deletePass {σ : Type} (remove : σ → String → σ) (ignore : List String)
    (dry : Bool) (seen : List String) :
    List (String × Nat) → σ → List String × σ × List TraceOp
  | [], st => ([], st, [])
  | e :: rest, st =>
    if !memStr e.1 seen && !is_ignored e.1 ignore then
      let st' := if dry then st else remove st e.1
      let (ds, st'', tr) := deletePass remove ignore dry seen rest st'
      (e.1 :: ds, st'', if dry then tr else TraceOp.deleteOp e.1 :: tr)
    else deletePass remove ignore dry seen rest st

/-- Removal primitive of a filesystem destination (`os.remove`). -/
def fsRemove (fs : FS) (rel : String) : FS :=
  { fs with files := removeFile fs.files rel }

/-- Removal primitive of a bucket destination (`delete_object`). -/
def bucketRemove (b : Bucket) (key : String) : Bucket :=
  b.filter (fun e => e.1 ≠ key)

/-- The body of `LocalStorage.sync_folder` after source/destination are
fixed (lines 115–162): snapshot the destination metadata, walk the source,
then run the optional delete pass against the snapshot. -/
def localSyncCore (src dst : FS) (ignore : List String) (delete dry_run : Bool) :
    Except Err (SyncPlan × FS × List TraceOp) := do
  let dstMeta := dst.files
  let (copies, dst1, tr1) ← localWalk dstMeta ignore dry_run src.files dst
  let (dels, dst2, tr2) :=
    if delete then
      deletePass fsRemove ignore dry_run (seenKeys src.files ignore) dstMeta dst1
    else ([], dst1, [])
  Except.ok (⟨copies, dels⟩, dst2, tr1 ++ tr2)

/-- `LocalStorage.sync_folder`.  `selfFolder` is the backend's folder (it
exists, `__init__` creates it); `local_folder` is `None` when the given
local tree root does not exist on disk.  The result is the action plan, the
updated backend folder, the updated local tree, and the executed
operations. -/
def LocalStorage.sync_folder (selfFolder : FS) (filePatterns : List String)
    (local_folder : Option FS) (mode : String) (delete dry_run : Bool)
    (ignore_patterns : Option (List String)) :
    Except Err (SyncPlan × FS × FS × List TraceOp) :=
  if mode ≠ "push" ∧ mode ≠ "pull" then Except.error Err.invalidArgument
  else if mode = "push" then
    match local_folder with
    | none => Except.error Err.notFound
    | some lf => do
      let ignore := load_ignore_patterns filePatterns ignore_patterns
      let (plan, dst', tr) ← localSyncCore lf selfFolder ignore delete dry_run
      Except.ok (plan, dst', lf, tr)
  else do
    let lf := local_folder.getD ⟨[], []⟩
    let ignore := load_ignore_patterns filePatterns ignore_patterns
    let (plan, dst', tr) ← localSyncCore selfFolder lf ignore delete dry_run
    Except.ok (plan, selfFolder, dst', tr)

/-- The push walk of `S3Storage.sync_folder` (lines 174–188): classify each
local file against the bucket listing; a live run uploads immediately
(`self.upload(local_path, filename=key)` stores the file's bytes under the
key, so the listed size of the key becomes the local size). -/
def s3PushWalk (s3Meta : List (String × Nat)) (ignore : List String) (dry : Bool) :
    List (String × Nat) → Bucket → List String × Bucket × List TraceOp
  | [], b => ([], b, [])
  | e :: rest, b =>
    if is_ignored e.1 ignore then s3PushWalk s3Meta ignore dry rest b
    else if copyCond s3Meta e.1 e.2 then
      let b' := if dry then b else setFile b e.1 e.2
      let (cs, b'', tr) := s3PushWalk s3Meta ignore dry rest b'
      (e.1 :: cs, b'', if dry then tr else TraceOp.copyOp e.1 :: tr)
    else s3PushWalk s3Meta ignore dry rest b

/-- The push branch of `S3Storage.sync_folder` (lines 155–197). -/
def s3Push (bucket : Bucket) (lf : FS) (ignore : List String) (delete dry_run : Bool) :
    SyncPlan × Bucket × List TraceOp :=
  let s3Meta := bucket
  let (copies, b1, tr1) := s3PushWalk s3Meta ignore dry_run lf.files bucket
  let (dels, b2, tr2) :=
    if delete then
      deletePass bucketRemove ignore dry_run (seenKeys lf.files ignore) s3Meta b1
    else ([], b1, [])
  (⟨copies, dels⟩, b2, tr1 ++ tr2)

/-- The pull walk of `S3Storage.sync_folder` (lines 209–220): a key is
copied iff its destination path does not currently exist (`os.path.exists`);
a live run creates the parent directories and downloads immediately, so
directories created for one key can make a later key's path exist. -/
def pullWalk (ignore : List String) (dry : Bool) :
    List (String × Nat) → FS → Except Err (List String × FS × List TraceOp)
  | [], lfs => Except.ok ([], lfs, [])
  | e :: rest, lfs =>
    if is_ignored e.1 ignore then pullWalk ignore dry rest lfs
    else if !fsExists lfs e.1 then
      if dry then do
        let (cs, l, tr) ← pullWalk ignore dry rest lfs
        Except.ok (e.1 :: cs, l, tr)
      else do
        let lfs1 ← osMakedirs lfs e.1
        let lfs2 := { lfs1 with files := setFile lfs1.files e.1 e.2 }
        let (cs, l, tr) ← pullWalk ignore dry rest lfs2
        Except.ok (e.1 :: cs, l, TraceOp.copyOp e.1 :: tr)
    else pullWalk ignore dry rest lfs

/-- The pull branch of `S3Storage.sync_folder` (lines 200–232): walk the
bucket keys, then — when `delete` is set — walk the *current* local tree and
remove entries that are neither bucket keys nor ignored. -/
def s3Pull (bucket : Bucket) (lf : FS) (ignore : List String) (delete dry_run : Bool) :
    Except Err (SyncPlan × FS × List TraceOp) := do
  let (copies, lfs1, tr1) ← pullWalk ignore dry_run bucket lf
  let (dels, lfs2, tr2) :=
    if delete then
      deletePass fsRemove ignore dry_run (seenKeys bucket ignore) lfs1.files lfs1
    else ([], lfs1, [])
  Except.ok (⟨copies, dels⟩, lfs2, tr1 ++ tr2)

/-- `S3Storage.sync_folder`.  The result is the action plan, the updated
bucket, the updated local tree, and the executed operations. -/
def S3Storage.sync_folder (bucket : Bucket) (filePatterns : List String)
    (local_folder : Option FS) (mode : String) (delete dry_run : Bool)
    (ignore_patterns : Option (List String)) :
    Except Err (SyncPlan × Bucket × FS × List TraceOp) :=
  if mode ≠ "push" ∧ mode ≠ "pull" then Except.error Err.invalidArgument
  else if mode = "push" then
    match local_folder with
    | none => Except.error Err.notFound
    | some lf =>
      let ignore := load_ignore_patterns filePatterns ignore_patterns
      let (plan, b', tr) := s3Push bucket lf ignore delete dry_run
      Except.ok (plan, b', lf, tr)
  else do
    let lf := local_folder.getD ⟨[], []⟩
    let ignore := load_ignore_patterns filePatterns ignore_patterns
    let (plan, lf', tr) ← s3Pull bucket lf ignore delete dry_run
    Except.ok (plan, bucket, lf', tr)

/-! ## The `Storage` facade (`storage.py`) -/

/-- `Storage.sync_folder` with a local backend: line 39–40 forwards only
`local_folder`, `mode` and `delete`; the backend's `dry_run` and
`ignore_patterns` keep their defaults (`False`, `None`). -/
def Storage.sync_folder_local (selfFolder : FS) (filePatterns : List String)
    (local_folder : Option FS) (mode : String) (delete : Bool) :
    Except Err (SyncPlan × FS × FS × List TraceOp) :=
  LocalStorage.sync_folder selfFolder filePatterns local_folder mode delete false none

/-- `Storage.sync_folder` with an S3 backend: same forwarding. -/
def Storage.sync_folder_s3 (bucket : Bucket) (filePatterns : List String)
    (local_folder : Option FS) (mode : String) (delete : Bool) :
    Except Err (SyncPlan × Bucket × FS × List TraceOp) :=
  S3Storage.sync_folder bucket filePatterns local_folder mode delete false none

/-! ## Plan descriptions

Closed-form descriptions of the plans the loops build, used to state the
claims: the copies of a push-style walk, the copies of a pull walk against a
fixed local tree, and the deletes of the delete pass. -/

/-- The copy list of a push-style walk: the non-ignored source entries whose
path is absent from the destination snapshot or whose size differs. -/
def plannedCopies (meta : List (String × Nat)) (ignore : List String)
    (srcFiles : List (String × Nat)) : List String :=
  (srcFiles.filter (fun e => !is_ignored e.1 ignore && copyCond meta e.1 e.2)).map Prod.fst

/-- The copy list of a pull walk over a fixed local tree: the non-ignored
keys whose destination path does not exist. -/
def pullPlannedCopies (ignore : List String) (lfs : FS) (bucket : Bucket) : List String :=
  (bucket.filter (fun e => !is_ignored e.1 ignore && !fsExists lfs e.1)).map Prod.fst

/-- The delete list: recorded destination entries neither seen in the source
nor ignored. -/
def plannedDeletes (ignore : List String) (seen : List String)
    (meta : List (String × Nat)) : List String :=
  (meta.filter (fun e => !memStr e.1 seen && !is_ignored e.1 ignore)).map Prod.fst

/-- The bucket update of the push walk in closed form: fold `setFile` over
the copied entries. -/
def pushApply (L : List (String × Nat)) (b : Bucket) : Bucket :=
  L.foldl (fun b e => setFile b e.1 e.2) b

/-- The ignore rule as the specification words it: a pattern *not* ending in
`/` glob-matches the whole path, a pattern ending in `/` is a literal string
prefix of the path. -/
def specIgnoredRule (path : String) (patterns : List String) : Bool :=
  patterns.any (fun pattern =>
    if strEndsWith pattern "/" then strStartsWith path pattern
    else fnmatch path pattern)

/-! ## Basic lemmas on the list primitives -/

theorem memStr_iff {x : String} {l : List String} : memStr x l = true ↔ x ∈ l := by
  simp [memStr, List.any_eq_true]

theorem memStr_eq_false {x : String} {l : List String} : memStr x l = false ↔ x ∉ l := by
  rw [← memStr_iff]; cases memStr x l <;> simp

theorem lookupRel_eq_none {l : List (String × Nat)} {r : String} :
    lookupRel l r = none ↔ r ∉ l.map Prod.fst := by
  induction l with
  | nil => simp [lookupRel]
  | cons e es ih =>
    simp only [lookupRel, List.map_cons, List.mem_cons]
    by_cases h : e.1 = r
    · subst h; simp
    · simp [h, ih, Ne.symm h]

theorem lookupRel_isSome {l : List (String × Nat)} {r : String} :
    (lookupRel l r).isSome = true ↔ r ∈ l.map Prod.fst := by
  cases hv : lookupRel l r with
  | none => simp [lookupRel_eq_none.mp hv]
  | some v =>
    simp only [Option.isSome_some, true_iff]
    by_contra hmem
    rw [lookupRel_eq_none.mpr hmem] at hv
    simp at hv

theorem lookupRel_append {l m : List (String × Nat)} {r : String} :
    lookupRel (l ++ m) r =
      (match lookupRel l r with
       | some v => some v
       | none => lookupRel m r) := by
  induction l with
  | nil => simp [lookupRel]
  | cons e es ih =>
    by_cases h : e.1 = r <;> simp [lookupRel, h, ih]

theorem lookupRel_map_update_self {l : List (String × Nat)} {rel : String} {sz : Nat}
    (h : (lookupRel l rel).isSome = true) :
    lookupRel (l.map (fun e => if e.1 = rel then (rel, sz) else e)) rel = some sz := by
  induction l with
  | nil => simp [lookupRel] at h
  | cons e es ih =>
    by_cases he : e.1 = rel
    · simp [lookupRel, he]
    · simp only [lookupRel, he, if_false] at h
      simp [lookupRel, he, ih h]

theorem lookupRel_map_update_ne {l : List (String × Nat)} {rel r : String} {sz : Nat}
    (h : r ≠ rel) :
    lookupRel (l.map (fun e => if e.1 = rel then (rel, sz) else e)) r = lookupRel l r := by
  induction l with
  | nil => rfl
  | cons e es ih =>
    by_cases he : e.1 = rel
    · have h1 : ¬(rel = r) := fun hh => h hh.symm
      have h2 : ¬(e.1 = r) := by rw [he]; exact h1
      simp [lookupRel, he, h1, h2, ih]
    · simp [lookupRel, he, ih]

theorem lookupRel_setFile_self {l : List (String × Nat)} {rel : String} {sz : Nat} :
    lookupRel (setFile l rel sz) rel = some sz := by
  unfold setFile
  split
  · rename_i hsome
    exact lookupRel_map_update_self hsome
  · rename_i hnone
    rw [lookupRel_append]
    cases hv : lookupRel l rel with
    | some v => rw [hv] at hnone; simp at hnone
    | none => simp [lookupRel]

theorem lookupRel_setFile_ne {l : List (String × Nat)} {rel r : String} {sz : Nat}
    (h : r ≠ rel) : lookupRel (setFile l rel sz) r = lookupRel l r := by
  unfold setFile
  split
  · exact lookupRel_map_update_ne h
  · rw [lookupRel_append]
    cases hv : lookupRel l r with
    | some v => rfl
    | none =>
      simp only [lookupRel]
      rw [if_neg (fun hh => h hh.symm)]

theorem mem_setFile {l : List (String × Nat)} {rel : String} {sz : Nat} {e : String × Nat}
    (h : e ∈ setFile l rel sz) : e ∈ l ∨ e = (rel, sz) := by
  unfold setFile at h
  split at h
  · rcases List.mem_map.mp h with ⟨a, ha, rfl⟩
    by_cases hk : a.1 = rel
    · simp [hk]
    · simp [hk, ha]
  · rcases List.mem_append.mp h with h' | h'
    · exact Or.inl h'
    · simp at h'; simp [h']

theorem lookupRel_filterKey {l : List (String × Nat)} {p : String → Bool} {r : String} :
    lookupRel (l.filter (fun e => p e.1)) r =
      (if p r then lookupRel l r else none) := by
  induction l with
  | nil => simp [lookupRel]
  | cons e es ih =>
    by_cases he : e.1 = r
    · subst he
      by_cases hp : p e.1 <;> simp [lookupRel, hp, ih]
    · by_cases hp : p e.1 <;> simp [lookupRel, hp, he, ih]

theorem memStr_append {x : String} {l m : List String} :
    memStr x (l ++ m) = (memStr x l || memStr x m) := by
  simp [memStr, List.any_append]

/-! ## Lemmas on the filesystem primitives -/

theorem mkdirsChain_ok {L : List String} {fs fs' : FS}
    (h : mkdirsChain fs L = Except.ok fs') :
    fs'.files = fs.files ∧
      (∀ x, memStr x fs.dirs = true → memStr x fs'.dirs = true) ∧
      (∀ x, memStr x fs'.dirs = true → memStr x fs.dirs = true ∨ x ∈ L) := by
  induction L generalizing fs with
  | nil =>
    simp only [mkdirsChain, Except.ok.injEq] at h
    subst h
    exact ⟨rfl, fun _ hx => hx, fun _ hx => Or.inl hx⟩
  | cons d rest ih =>
    simp only [mkdirsChain] at h
    split at h
    · cases h
    · split at h
      · rcases ih h with ⟨h1, h2, h3⟩
        refine ⟨h1, h2, fun x hx => ?_⟩
        rcases h3 x hx with hx' | hx'
        · exact Or.inl hx'
        · exact Or.inr (List.mem_cons_of_mem _ hx')
      · rcases ih h with ⟨h1, h2, h3⟩
        refine ⟨h1, fun x hx => h2 x ?_, fun x hx => ?_⟩
        · rw [memStr_append, hx]; rfl
        · rcases h3 x hx with hx' | hx'
          · rw [memStr_append] at hx'
            rcases Bool.or_eq_true_iff.mp hx' with hx'' | hx''
            · exact Or.inl hx''
            · rw [memStr_iff] at hx''
              simp at hx''
              exact Or.inr (by simp [hx''])
          · exact Or.inr (List.mem_cons_of_mem _ hx')

theorem osMakedirs_ok {fs fs' : FS} {rel : String}
    (h : osMakedirs fs rel = Except.ok fs') :
    fs'.files = fs.files ∧
      (∀ x, memStr x fs.dirs = true → memStr x fs'.dirs = true) ∧
      (∀ x, memStr x fs'.dirs = true → memStr x fs.dirs = true ∨ x ∈ dirChain rel) :=
  mkdirsChain_ok h

theorem shutilCopy2_plain {fs : FS} {rel : String} {sz : Nat}
    (h : memStr rel fs.dirs = false) :
    shutilCopy2 fs rel sz = Except.ok { fs with files := setFile fs.files rel sz } := by
  simp [shutilCopy2, h]

theorem foldl_fsRemove_files (ds : List String) :
    ∀ st : FS, (ds.foldl fsRemove st).files = st.files.filter (fun e => !memStr e.1 ds) := by
  induction ds with
  | nil => intro st; simp [memStr]
  | cons d rest ih =>
    intro st
    rw [List.foldl_cons, ih]
    show (fsRemove st d).files.filter _ = _
    simp only [fsRemove, removeFile]
    rw [List.filter_filter]
    apply List.filter_congr
    intro x _
    by_cases hx : x.1 = d
    · simp [memStr, hx, List.any_cons]
    · simp [memStr, hx, List.any_cons]
      intro _
      exact fun hh => hx hh.symm

theorem foldl_fsRemove_dirs (ds : List String) :
    ∀ st : FS, (ds.foldl fsRemove st).dirs = st.dirs := by
  induction ds with
  | nil => intro st; rfl
  | cons d rest ih => intro st; rw [List.foldl_cons, ih]; rfl

theorem foldl_bucketRemove (ds : List String) :
    ∀ b : Bucket, ds.foldl bucketRemove b = b.filter (fun e => !memStr e.1 ds) := by
  induction ds with
  | nil => intro b; simp [memStr]
  | cons d rest ih =>
    intro b
    rw [List.foldl_cons, ih]
    show (bucketRemove b d).filter _ = _
    simp only [bucketRemove]
    rw [List.filter_filter]
    apply List.filter_congr
    intro x _
    by_cases hx : x.1 = d
    · simp [memStr, hx, List.any_cons]
    · simp [memStr, hx, List.any_cons]
      intro _
      exact fun hh => hx hh.symm

/-! ## The delete pass in closed form -/

theorem deletePass_spec {σ : Type} (remove : σ → String → σ) (ig : List String)
    (dry : Bool) (seen : List String) :
    ∀ (metaL : List (String × Nat)) (st : σ),
      deletePass remove ig dry seen metaL st =
        (plannedDeletes ig seen metaL,
         (if dry then st else (plannedDeletes ig seen metaL).foldl remove st),
         if dry then ([] : List TraceOp)
         else (plannedDeletes ig seen metaL).map TraceOp.deleteOp) := by
  intro metaL
  induction metaL with
  | nil => intro st; simp [deletePass, plannedDeletes]
  | cons e rest ih =>
    intro st
    by_cases hc : (!memStr e.1 seen && !is_ignored e.1 ig) = true
    · simp only [deletePass, hc, if_true, ih]
      cases dry <;>
        simp [plannedDeletes, List.filter_cons_of_pos, hc, List.foldl_cons, List.map_map]
    · have hc' : (!memStr e.1 seen && !is_ignored e.1 ig) = false := by
        cases hb : (!memStr e.1 seen && !is_ignored e.1 ig) with
        | false => rfl
        | true => exact absurd hb hc
      simp only [deletePass]
      rw [if_neg hc, ih st]
      simp [plannedDeletes, List.filter_cons, hc']

/-! ## The push-style walks -/

theorem localWalk_dry (meta : List (String × Nat)) (ig : List String) :
    ∀ (l : List (String × Nat)) (d : FS),
      localWalk meta ig true l d = Except.ok (plannedCopies meta ig l, d, []) := by
  intro l
  induction l with
  | nil => intro d; simp [localWalk, plannedCopies]
  | cons e rest ih =>
    intro d
    by_cases hig : is_ignored e.1 ig
    · simp [localWalk, hig, ih d, plannedCopies, List.filter_cons]
    · by_cases hcc : copyCond meta e.1 e.2
      · simp [localWalk, hig, hcc, ih d, plannedCopies, List.filter_cons,
          Bind.bind, Except.bind]
      · simp [localWalk, hig, hcc, ih d, plannedCopies, List.filter_cons]

theorem localWalk_ok {meta' : List (String × Nat)} {ig : List String} {dry : Bool} :
    ∀ {l : List (String × Nat)} {d : FS} {cs : List String} {d' : FS} {tr : List TraceOp},
      localWalk meta' ig dry l d = Except.ok (cs, d', tr) →
      cs = plannedCopies meta' ig l ∧ tr = (if dry then [] else cs.map TraceOp.copyOp) := by
  intro l
  induction l with
  | nil =>
    intro d cs d' tr h
    simp only [localWalk, Except.ok.injEq, Prod.mk.injEq] at h
    obtain ⟨h1, _, h3⟩ := h
    subst h1; subst h3
    simp [plannedCopies]
  | cons e rest ih =>
    intro d cs d' tr h
    by_cases hig : is_ignored e.1 ig
    · simp only [localWalk, hig, if_true] at h
      rcases ih h with ⟨h1, h2⟩
      refine ⟨?_, h2⟩
      simp [plannedCopies, List.filter_cons, hig, h1]
    · by_cases hcc : copyCond meta' e.1 e.2
      · cases dry with
        | true =>
          simp only [localWalk, hig, hcc, if_true, if_false] at h
          simp only [Bind.bind, Except.bind] at h
          cases hrec : localWalk meta' ig true rest d with
          | error err => rw [hrec] at h; simp at h
          | ok out =>
            obtain ⟨cs0, d0, tr0⟩ := out
            rw [hrec] at h
            simp only [Except.ok.injEq, Prod.mk.injEq] at h
            obtain ⟨rfl, -, rfl⟩ := h
            rcases ih hrec with ⟨h1, h2⟩
            constructor
            · simp [plannedCopies, List.filter_cons, hig, hcc, h1]
            · simp [h2]
        | false =>
          simp only [localWalk, hig, hcc, if_true, if_false] at h
          simp only [Bind.bind, Except.bind] at h
          cases hmk : osMakedirs d e.1 with
          | error err => rw [hmk] at h; simp at h
          | ok d1 =>
            rw [hmk] at h
            simp only at h
            cases hcp : shutilCopy2 d1 e.1 e.2 with
            | error err => rw [hcp] at h; simp at h
            | ok d2 =>
              rw [hcp] at h
              simp only at h
              cases hrec : localWalk meta' ig false rest d2 with
              | error err => rw [hrec] at h; simp at h
              | ok out =>
                obtain ⟨cs0, d0, tr0⟩ := out
                rw [hrec] at h
                simp only [Except.ok.injEq, Prod.mk.injEq] at h
                obtain ⟨rfl, -, rfl⟩ := h
                rcases ih hrec with ⟨h1, h2⟩
                constructor
                · simp [plannedCopies, List.filter_cons, hig, hcc, h1]
                · simp [h2, h1]
      · simp only [localWalk, hig, hcc, if_false] at h
        rcases ih h with ⟨h1, h2⟩
        refine ⟨?_, h2⟩
        simp [plannedCopies, List.filter_cons, hig, hcc, h1]

theorem localWalk_pass {meta' : List (String × Nat)} {ig : List String} {dry : Bool} :
    ∀ {l : List (String × Nat)} {d : FS},
      (∀ e ∈ l, is_ignored e.1 ig = false → copyCond meta' e.1 e.2 = false) →
      localWalk meta' ig dry l d = Except.ok ([], d, []) := by
  intro l
  induction l with
  | nil => intro d _; simp [localWalk]
  | cons e rest ih =>
    intro d hall
    by_cases hig : is_ignored e.1 ig
    · simp only [localWalk, hig, if_true]
      exact ih (fun x hx => hall x (List.mem_cons_of_mem _ hx))
    · have hig' : is_ignored e.1 ig = false := by
        cases hb : is_ignored e.1 ig with
        | false => rfl
        | true => exact absurd hb hig
      have hcc := hall e (List.mem_cons_self _ _) hig'
      simp only [localWalk, hig, hcc, if_false]
      exact ih (fun x hx => hall x (List.mem_cons_of_mem _ hx))

theorem s3PushWalk_eq (meta' : List (String × Nat)) (ig : List String) (dry : Bool) :
    ∀ (l : List (String × Nat)) (b : Bucket),
      s3PushWalk meta' ig dry l b =
        (plannedCopies meta' ig l,
         (if dry then b
          else pushApply (l.filter (fun e => !is_ignored e.1 ig && copyCond meta' e.1 e.2)) b),
         if dry then ([] : List TraceOp)
         else (plannedCopies meta' ig l).map TraceOp.copyOp) := by
  intro l
  induction l with
  | nil => intro b; simp [s3PushWalk, plannedCopies, pushApply]
  | cons e rest ih =>
    intro b
    by_cases hig : is_ignored e.1 ig
    · simp [s3PushWalk, hig, ih, plannedCopies, List.filter_cons]
    · have hig' : is_ignored e.1 ig = false := by
        cases hb : is_ignored e.1 ig with
        | false => rfl
        | true => exact absurd hb hig
      by_cases hcc : copyCond meta' e.1 e.2
      · simp only [s3PushWalk, hig, hcc, if_true, if_false, ih]
        cases dry <;>
          simp [plannedCopies, List.filter_cons, hig', hcc, pushApply, List.map_map]
      · have hcc' : copyCond meta' e.1 e.2 = false := by
          cases hb : copyCond meta' e.1 e.2 with
          | false => rfl
          | true => exact absurd hb hcc
        simp [s3PushWalk, hig, hcc, ih, plannedCopies, List.filter_cons, hig', hcc']

theorem foldl_setFile_lookup_not_mem {L : List (String × Nat)} {r : String}
    (h : r ∉ L.map Prod.fst) : ∀ b, lookupRel (pushApply L b) r = lookupRel b r := by
  induction L with
  | nil => intro b; rfl
  | cons e rest ih =>
    intro b
    simp only [List.map_cons, List.mem_cons, not_or] at h
    rw [show pushApply (e :: rest) b = pushApply rest (setFile b e.1 e.2) from rfl,
      ih h.2, lookupRel_setFile_ne h.1]

theorem foldl_setFile_lookup_mem {L : List (String × Nat)}
    (hnd : (L.map Prod.fst).Nodup) {e : String × Nat} (he : e ∈ L) :
    ∀ b, lookupRel (pushApply L b) e.1 = some e.2 := by
  induction L with
  | nil => cases he
  | cons f rest ih =>
    intro b
    rw [List.map_cons, List.nodup_cons] at hnd
    rcases List.mem_cons.mp he with rfl | he'
    · rw [show pushApply (e :: rest) b = pushApply rest (setFile b e.1 e.2) from rfl,
        foldl_setFile_lookup_not_mem hnd.1, lookupRel_setFile_self]
    · exact ih hnd.2 he' (setFile b f.1 f.2)

theorem mem_pushApply {L : List (String × Nat)} {x : String × Nat} :
    ∀ b, x ∈ pushApply L b → x ∈ b ∨ x.1 ∈ L.map Prod.fst := by
  induction L with
  | nil => intro b hx; exact Or.inl hx
  | cons e rest ih =>
    intro b hx
    rcases ih (setFile b e.1 e.2) hx with hx' | hx'
    · rcases mem_setFile hx' with hb | hb
      · exact Or.inl hb
      · subst hb; simp
    · simp [hx']

/-! ## The pull walk -/

theorem pullWalk_dry (ig : List String) :
    ∀ (l : List (String × Nat)) (lfs : FS),
      pullWalk ig true l lfs = Except.ok (pullPlannedCopies ig lfs l, lfs, []) := by
  intro l
  induction l with
  | nil => intro lfs; simp [pullWalk, pullPlannedCopies]
  | cons e rest ih =>
    intro lfs
    by_cases hig : is_ignored e.1 ig
    · simp [pullWalk, hig, ih lfs, pullPlannedCopies, List.filter_cons]
    · by_cases hex : fsExists lfs e.1
      · simp [pullWalk, hig, hex, ih lfs, pullPlannedCopies, List.filter_cons]
      · simp [pullWalk, hig, hex, ih lfs, pullPlannedCopies, List.filter_cons,
          Bind.bind, Except.bind]

theorem pullWalk_ok_trace {ig : List String} {dry : Bool} :
    ∀ {l : List (String × Nat)} {lfs : FS} {cs : List String} {l' : FS} {tr : List TraceOp},
      pullWalk ig dry l lfs = Except.ok (cs, l', tr) →
      (∀ x ∈ cs, is_ignored x ig = false) ∧
        tr = (if dry then [] else cs.map TraceOp.copyOp) := by
  intro l
  induction l with
  | nil =>
    intro lfs cs l' tr h
    simp only [pullWalk, Except.ok.injEq, Prod.mk.injEq] at h
    obtain ⟨rfl, -, rfl⟩ := h
    simp
  | cons e rest ih =>
    intro lfs cs l' tr h
    by_cases hig : is_ignored e.1 ig
    · simp only [pullWalk, hig, if_true] at h
      exact ih h
    · have hig' : is_ignored e.1 ig = false := by
        cases hb : is_ignored e.1 ig with
        | false => rfl
        | true => exact absurd hb hig
      by_cases hex : fsExists lfs e.1
      · simp only [pullWalk, hig, hex, Bool.not_true, if_false] at h
        exact ih h
      · cases dry with
        | true =>
          simp only [pullWalk, hig, hex, if_true, if_false, Bool.not_false] at h
          simp only [Bind.bind, Except.bind] at h
          cases hrec : pullWalk ig true rest lfs with
          | error err => rw [hrec] at h; simp at h
          | ok out =>
            obtain ⟨cs0, l0, tr0⟩ := out
            rw [hrec] at h
            simp only [Except.ok.injEq, Prod.mk.injEq] at h
            obtain ⟨rfl, -, rfl⟩ := h
            rcases ih hrec with ⟨h1, h2⟩
            refine ⟨?_, by simp [h2]⟩
            intro x hx
            rcases List.mem_cons.mp hx with rfl | hx'
            · exact hig'
            · exact h1 x hx'
        | false =>
          simp only [pullWalk, hig, hex, if_true, if_false, Bool.not_false] at h
          simp only [Bind.bind, Except.bind] at h
          cases hmk : osMakedirs lfs e.1 with
          | error err => rw [hmk] at h; simp at h
          | ok lfs1 =>
            rw [hmk] at h
            simp only at h
            cases hrec : pullWalk ig false rest
                { lfs1 with files := setFile lfs1.files e.1 e.2 } with
            | error err => rw [hrec] at h; simp at h
            | ok out =>
              obtain ⟨cs0, l0, tr0⟩ := out
              rw [hrec] at h
              simp only [Except.ok.injEq, Prod.mk.injEq] at h
              obtain ⟨rfl, -, rfl⟩ := h
              rcases ih hrec with ⟨h1, h2⟩
              refine ⟨?_, by simp [h2]⟩
              intro x hx
              rcases List.mem_cons.mp hx with rfl | hx'
              · exact hig'
              · exact h1 x hx'

theorem pullWalk_pass {ig : List String} {dry : Bool} :
    ∀ {l : List (String × Nat)} {lfs : FS},
      (∀ e ∈ l, is_ignored e.1 ig = false → fsExists lfs e.1 = true) →
      pullWalk ig dry l lfs = Except.ok ([], lfs, []) := by
  intro l
  induction l with
  | nil => intro lfs _; simp [pullWalk]
  | cons e rest ih =>
    intro lfs hall
    by_cases hig : is_ignored e.1 ig
    · simp only [pullWalk, hig, if_true]
      exact ih (fun x hx => hall x (List.mem_cons_of_mem _ hx))
    · have hig' : is_ignored e.1 ig = false := by
        cases hb : is_ignored e.1 ig with
        | false => rfl
        | true => exact absurd hb hig
      have hex := hall e (List.mem_cons_self _ _) hig'
      simp only [pullWalk, hig, hex, Bool.not_true, if_false]
      exact ih (fun x hx => hall x (List.mem_cons_of_mem _ hx))

theorem pullWalk_live_post {ig : List String} :
    ∀ {l : List (String × Nat)} {lfs : FS} {cs : List String} {l' : FS} {tr : List TraceOp},
      pullWalk ig false l lfs = Except.ok (cs, l', tr) →
      (∀ r, fsExists lfs r = true → fsExists l' r = true) ∧
        (∀ e ∈ l, is_ignored e.1 ig = false → fsExists l' e.1 = true) ∧
        (∀ x ∈ l'.files, x ∈ lfs.files ∨
          (is_ignored x.1 ig = false ∧ x.1 ∈ l.map Prod.fst)) := by
  intro l
  induction l with
  | nil =>
    intro lfs cs l' tr h
    simp only [pullWalk, Except.ok.injEq, Prod.mk.injEq] at h
    obtain ⟨-, h2, -⟩ := h
    subst h2
    exact ⟨fun _ hx => hx, by simp, fun x hx => Or.inl hx⟩
  | cons e rest ih =>
    intro lfs cs l' tr h
    by_cases hig : is_ignored e.1 ig
    · simp only [pullWalk, hig, if_true] at h
      rcases ih h with ⟨i1, i2, i3⟩
      refine ⟨i1, fun x hx hxg => ?_, fun x hx => ?_⟩
      · rcases List.mem_cons.mp hx with rfl | hx'
        · exact absurd hig (by simp [hxg])
        · exact i2 x hx' hxg
      · rcases i3 x hx with h' | h'
        · exact Or.inl h'
        · exact Or.inr ⟨h'.1, by simp [h'.2]⟩
    · by_cases hex : fsExists lfs e.1
      · simp only [pullWalk, hig, hex, Bool.not_true, if_false] at h
        rcases ih h with ⟨i1, i2, i3⟩
        refine ⟨i1, fun x hx hxg => ?_, fun x hx => ?_⟩
        · rcases List.mem_cons.mp hx with rfl | hx'
          · exact i1 _ hex
          · exact i2 x hx' hxg
        · rcases i3 x hx with h' | h'
          · exact Or.inl h'
          · exact Or.inr ⟨h'.1, by simp [h'.2]⟩
      · simp only [pullWalk, hig, hex, if_true, if_false, Bool.not_false] at h
        simp only [Bind.bind, Except.bind] at h
        cases hmk : osMakedirs lfs e.1 with
        | error err => rw [hmk] at h; simp at h
        | ok lfs1 =>
          rw [hmk] at h
          simp only at h
          rcases osMakedirs_ok hmk with ⟨hf1, hdmono, hdsup⟩
          set lfs2 : FS := { lfs1 with files := setFile lfs1.files e.1 e.2 } with hlfs2
          cases hrec : pullWalk ig false rest lfs2 with
          | error err => rw [hrec] at h; simp at h
          | ok out =>
            obtain ⟨cs0, l0, tr0⟩ := out
            rw [hrec] at h
            simp only [Except.ok.injEq, Prod.mk.injEq] at h
            obtain ⟨-, rfl, -⟩ := h
            rcases ih hrec with ⟨i1, i2, i3⟩
            have hmono12 : ∀ r, fsExists lfs r = true → fsExists lfs2 r = true := by
              intro r hr
              rcases Bool.or_eq_true_iff.mp hr with hr' | hr'
              · apply Bool.or_eq_true_iff.mpr; left
                by_cases hre : r = e.1
                · subst hre; simp [hlfs2, lookupRel_setFile_self]
                · simp only [hlfs2]
                  rw [lookupRel_setFile_ne hre, hf1]
                  exact hr'
              · exact Bool.or_eq_true_iff.mpr (Or.inr (hdmono r hr'))
            refine ⟨fun r hr => i1 r (hmono12 r hr), fun x hx hxg => ?_, fun x hx => ?_⟩
            · rcases List.mem_cons.mp hx with rfl | hx'
              · apply i1
                apply Bool.or_eq_true_iff.mpr; left
                simp [hlfs2, lookupRel_setFile_self]
              · exact i2 x hx' hxg
            · rcases i3 x hx with h' | h'
              · simp only [hlfs2] at h'
                rcases mem_setFile h' with hb | hb
                · rw [hf1] at hb; exact Or.inl hb
                · subst hb
                  refine Or.inr ⟨?_, by simp⟩
                  cases hb2 : is_ignored e.1 ig with
                  | false => rfl
                  | true => exact absurd hb2 hig
              · exact Or.inr ⟨h'.1, by simp [h'.2]⟩

theorem pullWalk_live_planned {ig : List String} {lfs0 : FS} :
    ∀ {l : List (String × Nat)} {lfs : FS} {cs : List String} {l' : FS} {tr : List TraceOp},
      (l.map Prod.fst).Nodup →
      (∀ e ∈ l, ∀ e' ∈ l, e.1 ∉ dirChain e'.1) →
      (∀ e ∈ l, fsExists lfs e.1 = fsExists lfs0 e.1) →
      pullWalk ig false l lfs = Except.ok (cs, l', tr) →
      cs = pullPlannedCopies ig lfs0 l := by
  intro l
  induction l with
  | nil =>
    intro lfs cs l' tr _ _ _ h
    simp only [pullWalk, Except.ok.injEq, Prod.mk.injEq] at h
    obtain ⟨rfl, -, -⟩ := h
    simp [pullPlannedCopies]
  | cons e rest ih =>
    intro lfs cs l' tr hnd hpf hinv h
    rw [List.map_cons, List.nodup_cons] at hnd
    have hpf' : ∀ x ∈ rest, ∀ y ∈ rest, x.1 ∉ dirChain y.1 :=
      fun x hx y hy => hpf x (List.mem_cons_of_mem _ hx) y (List.mem_cons_of_mem _ hy)
    by_cases hig : is_ignored e.1 ig
    · simp only [pullWalk, hig, if_true] at h
      have := ih hnd.2 hpf'
        (fun x hx => hinv x (List.mem_cons_of_mem _ hx)) h
      simp [pullPlannedCopies, List.filter_cons, hig, this]
    · have hinv0 := hinv e (List.mem_cons_self _ _)
      by_cases hex : fsExists lfs e.1
      · simp only [pullWalk, hig, hex, Bool.not_true, if_false] at h
        have := ih hnd.2 hpf'
          (fun x hx => hinv x (List.mem_cons_of_mem _ hx)) h
        have hex0 : fsExists lfs0 e.1 = true := hinv0 ▸ hex
        simp [pullPlannedCopies, List.filter_cons, hex0, this]
      · simp only [pullWalk, hig, hex, if_true, if_false, Bool.not_false] at h
        simp only [Bind.bind, Except.bind] at h
        cases hmk : osMakedirs lfs e.1 with
        | error err => rw [hmk] at h; simp at h
        | ok lfs1 =>
          rw [hmk] at h
          simp only at h
          rcases osMakedirs_ok hmk with ⟨hf1, hdmono, hdsup⟩
          set lfs2 : FS := { lfs1 with files := setFile lfs1.files e.1 e.2 } with hlfs2
          cases hrec : pullWalk ig false rest lfs2 with
          | error err => rw [hrec] at h; simp at h
          | ok out =>
            obtain ⟨cs0, l0, tr0⟩ := out
            rw [hrec] at h
            simp only [Except.ok.injEq, Prod.mk.injEq] at h
            obtain ⟨rfl, -, -⟩ := h
            have hinv' : ∀ x ∈ rest, fsExists lfs2 x.1 = fsExists lfs0 x.1 := by
              intro x hx
              have hxne : x.1 ≠ e.1 := by
                intro hxe
                exact hnd.1 (hxe ▸ List.mem_map_of_mem Prod.fst hx)
              have hfiles : lookupRel lfs2.files x.1 = lookupRel lfs.files x.1 := by
                simp only [hlfs2]
                rw [lookupRel_setFile_ne hxne, hf1]
              have hdirs : memStr x.1 lfs2.dirs = memStr x.1 lfs.dirs := by
                cases hb : memStr x.1 lfs.dirs with
                | true => exact (hdmono x.1 hb)
                | false =>
                  cases hb2 : memStr x.1 lfs2.dirs with
                  | false => rfl
                  | true =>
                    rcases hdsup x.1 hb2 with hx' | hx'
                    · rw [hb] at hx'; exact absurd hx' Bool.false_ne_true
                    · exact absurd hx'
                        (hpf x (List.mem_cons_of_mem _ hx) e (List.mem_cons_self _ _))
              rw [← hinv x (List.mem_cons_of_mem _ hx)]
              simp only [fsExists, hfiles, hdirs]
            have := ih hnd.2 hpf' hinv' hrec
            have hex0 : fsExists lfs0 e.1 = false := hinv0 ▸ (by
              cases hb : fsExists lfs e.1 with
              | false => rfl
              | true => exact absurd hb hex)
            simp [pullPlannedCopies, List.filter_cons, hex0, hig, this]

theorem localWalk_live_nice {meta' : List (String × Nat)} {ig : List String} :
    ∀ {l : List (String × Nat)} {d : FS} {cs : List String} {d' : FS} {tr : List TraceOp},
      (l.map Prod.fst).Nodup →
      (∀ e ∈ l, ∀ e' ∈ l, e.1 ∉ dirChain e'.1) →
      (∀ e ∈ l, memStr e.1 d.dirs = false) →
      localWalk meta' ig false l d = Except.ok (cs, d', tr) →
      (∀ r, r ∉ l.map Prod.fst → lookupRel d'.files r = lookupRel d.files r) ∧
        (∀ e ∈ l, is_ignored e.1 ig = false →
          lookupRel d'.files e.1 =
            (if copyCond meta' e.1 e.2 then some e.2 else lookupRel d.files e.1)) ∧
        (∀ x ∈ d'.files, x ∈ d.files ∨
          (is_ignored x.1 ig = false ∧ x.1 ∈ l.map Prod.fst)) := by
  intro l
  induction l with
  | nil =>
    intro d cs d' tr _ _ _ h
    simp only [localWalk, Except.ok.injEq, Prod.mk.injEq] at h
    obtain ⟨-, h2, -⟩ := h
    subst h2
    exact ⟨fun _ _ => rfl, by simp, fun x hx => Or.inl hx⟩
  | cons e rest ih =>
    intro d cs d' tr hnd hpf hdirs h
    rw [List.map_cons, List.nodup_cons] at hnd
    have hpf' : ∀ x ∈ rest, ∀ y ∈ rest, x.1 ∉ dirChain y.1 :=
      fun x hx y hy => hpf x (List.mem_cons_of_mem _ hx) y (List.mem_cons_of_mem _ hy)
    by_cases hig : is_ignored e.1 ig
    · simp only [localWalk, hig, if_true] at h
      rcases ih hnd.2 hpf' (fun x hx => hdirs x (List.mem_cons_of_mem _ hx)) h with
        ⟨i1, i2, i3⟩
      refine ⟨fun r hr => i1 r (fun hr' => hr (by simp [hr'])), fun x hx hxg => ?_,
        fun x hx => ?_⟩
      · rcases List.mem_cons.mp hx with rfl | hx'
        · exact absurd hig (by simp [hxg])
        · exact i2 x hx' hxg
      · rcases i3 x hx with h' | h'
        · exact Or.inl h'
        · exact Or.inr ⟨h'.1, by simp [h'.2]⟩
    · by_cases hcc : copyCond meta' e.1 e.2
      · simp only [localWalk, hig, hcc, if_true, if_false] at h
        simp only [Bind.bind, Except.bind] at h
        cases hmk : osMakedirs d e.1 with
        | error err => rw [hmk] at h; simp at h
        | ok d1 =>
          rw [hmk] at h
          simp only at h
          rcases osMakedirs_ok hmk with ⟨hf1, hdmono, hdsup⟩
          have hnotdir : memStr e.1 d1.dirs = false := by
            cases hb : memStr e.1 d1.dirs with
            | false => rfl
            | true =>
              rcases hdsup e.1 hb with hx' | hx'
              · rw [hdirs e (List.mem_cons_self _ _)] at hx'
                exact absurd hx' Bool.false_ne_true
              · exact absurd hx' (hpf e (List.mem_cons_self _ _) e (List.mem_cons_self _ _))
          rw [shutilCopy2_plain hnotdir] at h
          simp only at h
          set d2 : FS := { d1 with files := setFile d1.files e.1 e.2 } with hd2
          cases hrec : localWalk meta' ig false rest d2 with
          | error err => rw [hrec] at h; simp at h
          | ok out =>
            obtain ⟨cs0, d0, tr0⟩ := out
            rw [hrec] at h
            simp only [Except.ok.injEq, Prod.mk.injEq] at h
            obtain ⟨-, rfl, -⟩ := h
            have hdirs' : ∀ x ∈ rest, memStr x.1 d2.dirs = false := by
              intro x hx
              cases hb : memStr x.1 d2.dirs with
              | false => rfl
              | true =>
                rcases hdsup x.1 hb with hx' | hx'
                · rw [hdirs x (List.mem_cons_of_mem _ hx)] at hx'
                  exact absurd hx' Bool.false_ne_true
                · exact absurd hx'
                    (hpf x (List.mem_cons_of_mem _ hx) e (List.mem_cons_self _ _))
            rcases ih hnd.2 hpf' hdirs' hrec with ⟨i1, i2, i3⟩
            have hfil2 : d2.files = setFile d.files e.1 e.2 := by
              simp only [hd2, hf1]
            refine ⟨fun r hr => ?_, fun x hx hxg => ?_, fun x hx => ?_⟩
            · simp only [List.map_cons, List.mem_cons, not_or] at hr
              rw [i1 r (by simpa using hr.2), hfil2, lookupRel_setFile_ne hr.1]
            · rcases List.mem_cons.mp hx with rfl | hx'
              · rw [i1 x.1 hnd.1, hfil2, lookupRel_setFile_self, if_pos hcc]
              · rw [i2 x hx' hxg]
                have hxne : x.1 ≠ e.1 := by
                  intro hxe
                  exact hnd.1 (hxe ▸ List.mem_map_of_mem Prod.fst hx')
                by_cases hxc : copyCond meta' x.1 x.2
                · simp [hxc]
                · simp only [hxc, if_false, Bool.false_eq_true]
                  rw [lookupRel_setFile_ne hxne, hf1]
            · rcases i3 x hx with h' | h'
              · rw [hfil2] at h'
                rcases mem_setFile h' with hb | hb
                · exact Or.inl hb
                · subst hb
                  refine Or.inr ⟨?_, by simp⟩
                  cases hb2 : is_ignored e.1 ig with
                  | false => rfl
                  | true => exact absurd hb2 hig
              · exact Or.inr ⟨h'.1, by simp [h'.2]⟩
      · simp only [localWalk, hig, hcc, if_false] at h
        rcases ih hnd.2 hpf' (fun x hx => hdirs x (List.mem_cons_of_mem _ hx)) h with
          ⟨i1, i2, i3⟩
        refine ⟨fun r hr => i1 r (fun hr' => hr (by simp [hr'])), fun x hx hxg => ?_,
          fun x hx => ?_⟩
        · rcases List.mem_cons.mp hx with rfl | hx'
          · have hcc' : copyCond meta' x.1 x.2 = false := by
              cases hb : copyCond meta' x.1 x.2 with
              | false => rfl
              | true => exact absurd hb hcc
            rw [i1 x.1 hnd.1, hcc']
            simp
          · exact i2 x hx' hxg
        · rcases i3 x hx with h' | h'
          · exact Or.inl h'
          · exact Or.inr ⟨h'.1, by simp [h'.2]⟩

/-! ## Mid-level corollaries -/

theorem copyCond_false {meta' : List (String × Nat)} {r : String} {sz : Nat}
    (h : copyCond meta' r sz = false) : lookupRel meta' r = some sz := by
  unfold copyCond at h
  cases hv : lookupRel meta' r with
  | none => rw [hv] at h; simp at h
  | some s =>
    rw [hv] at h
    simp only [decide_eq_false_iff_not, Decidable.not_not] at h
    rw [h]

theorem copyCond_of_lookup {meta' : List (String × Nat)} {r : String} {sz : Nat}
    (h : lookupRel meta' r = some sz) : copyCond meta' r sz = false := by
  unfold copyCond
  rw [h]
  simp

theorem mem_plannedCopies {x : String} {meta' : List (String × Nat)} {ig : List String}
    {srcFiles : List (String × Nat)} (h : x ∈ plannedCopies meta' ig srcFiles) :
    is_ignored x ig = false ∧ x ∈ srcFiles.map Prod.fst := by
  unfold plannedCopies at h
  rcases List.mem_map.mp h with ⟨e, he, rfl⟩
  rcases List.mem_filter.mp he with ⟨he1, he2⟩
  simp only [Bool.and_eq_true] at he2
  exact ⟨by simpa using he2.1, List.mem_map_of_mem Prod.fst he1⟩

theorem mem_pullPlannedCopies {x : String} {ig : List String} {lfs : FS} {bucket : Bucket}
    (h : x ∈ pullPlannedCopies ig lfs bucket) :
    is_ignored x ig = false ∧ x ∈ bucket.map Prod.fst := by
  unfold pullPlannedCopies at h
  rcases List.mem_map.mp h with ⟨e, he, rfl⟩
  rcases List.mem_filter.mp he with ⟨he1, he2⟩
  simp only [Bool.and_eq_true] at he2
  exact ⟨by simpa using he2.1, List.mem_map_of_mem Prod.fst he1⟩

theorem mem_plannedDeletes {x : String} {ig seen : List String}
    {metaL : List (String × Nat)} (h : x ∈ plannedDeletes ig seen metaL) :
    memStr x seen = false ∧ is_ignored x ig = false ∧ x ∈ metaL.map Prod.fst := by
  unfold plannedDeletes at h
  rcases List.mem_map.mp h with ⟨e, he, rfl⟩
  rcases List.mem_filter.mp he with ⟨he1, he2⟩
  simp only [Bool.and_eq_true] at he2
  exact ⟨by simpa using he2.1, by simpa using he2.2,
    List.mem_map_of_mem Prod.fst he1⟩

theorem mem_plannedDeletes_of {e : String × Nat} {ig seen : List String}
    {metaL : List (String × Nat)} (he : e ∈ metaL) (hs : memStr e.1 seen = false)
    (hig : is_ignored e.1 ig = false) : e.1 ∈ plannedDeletes ig seen metaL := by
  unfold plannedDeletes
  refine List.mem_map_of_mem Prod.fst (List.mem_filter.mpr ⟨he, ?_⟩)
  simp [hs, hig]

theorem mem_seenKeys {e : String × Nat} {l : List (String × Nat)} {ig : List String}
    (he : e ∈ l) (hig : is_ignored e.1 ig = false) :
    memStr e.1 (seenKeys l ig) = true := by
  rw [memStr_iff]
  exact List.mem_map_of_mem Prod.fst (List.mem_filter.mpr ⟨he, by simp [hig]⟩)

theorem plannedDeletes_nil {ig seen : List String} {metaL : List (String × Nat)}
    (h : ∀ m ∈ metaL, memStr m.1 seen = true ∨ is_ignored m.1 ig = true) :
    plannedDeletes ig seen metaL = [] := by
  unfold plannedDeletes
  rw [List.filter_eq_nil_iff.mpr, List.map_nil]
  intro m hm
  rcases h m hm with h' | h' <;> simp [h']

theorem plannedDeletes_append {ig seen : List String} {l m : List (String × Nat)} :
    plannedDeletes ig seen (l ++ m) = plannedDeletes ig seen l ++ plannedDeletes ig seen m := by
  unfold plannedDeletes
  rw [List.filter_append, List.map_append]

theorem mkdirsChain_error {L : List String} {fs : FS} {e : Err}
    (h : mkdirsChain fs L = Except.error e) : e = Err.osError := by
  induction L generalizing fs with
  | nil => simp [mkdirsChain] at h
  | cons d rest ih =>
    simp only [mkdirsChain] at h
    split at h
    · cases h; rfl
    · split at h
      · exact ih h
      · exact ih h

theorem shutilCopy2_error {fs : FS} {rel : String} {sz : Nat} {e : Err}
    (h : shutilCopy2 fs rel sz = Except.error e) : e = Err.osError := by
  unfold shutilCopy2 at h
  split at h
  · split at h
    · cases h; rfl
    · cases h
  · cases h

theorem memStr_cons_of {x y : String} {s : List String} (h : memStr x s = true) :
    memStr x (y :: s) = true := by
  rw [memStr_iff] at *
  exact List.mem_cons_of_mem _ h

theorem seenKeys_cons_pos {e : String × Nat} {l : List (String × Nat)} {ig : List String}
    (h : is_ignored e.1 ig = false) : seenKeys (e :: l) ig = e.1 :: seenKeys l ig := by
  simp [seenKeys, List.filter_cons, h]

theorem seenKeys_cons_neg {e : String × Nat} {l : List (String × Nat)} {ig : List String}
    (h : is_ignored e.1 ig = true) : seenKeys (e :: l) ig = seenKeys l ig := by
  simp [seenKeys, List.filter_cons, h]

/-! ## Core-level closed forms and destructurings -/

theorem localSyncCore_dry (src dst : FS) (ig : List String) (del : Bool) :
    localSyncCore src dst ig del true =
      Except.ok (⟨plannedCopies dst.files ig src.files,
          if del then plannedDeletes ig (seenKeys src.files ig) dst.files else []⟩,
        dst, []) := by
  simp only [localSyncCore]
  rw [localWalk_dry]
  simp only [Bind.bind, Except.bind]
  cases del <;> simp [deletePass_spec]

theorem localSyncCore_live_ok {src dst : FS} {ig : List String} {del : Bool}
    {p : SyncPlan} {st : FS} {tr : List TraceOp}
    (h : localSyncCore src dst ig del false = Except.ok (p, st, tr)) :
    ∃ dst1,
      localWalk dst.files ig false src.files dst =
        Except.ok (plannedCopies dst.files ig src.files, dst1,
          (plannedCopies dst.files ig src.files).map TraceOp.copyOp) ∧
      p = ⟨plannedCopies dst.files ig src.files,
           if del then plannedDeletes ig (seenKeys src.files ig) dst.files else []⟩ ∧
      st = (if del then
              (plannedDeletes ig (seenKeys src.files ig) dst.files).foldl fsRemove dst1
            else dst1) ∧
      tr = (plannedCopies dst.files ig src.files).map TraceOp.copyOp ++
           (if del then
              (plannedDeletes ig (seenKeys src.files ig) dst.files).map TraceOp.deleteOp
            else []) := by
  unfold localSyncCore at h
  simp only [Bind.bind, Except.bind] at h
  cases hw : localWalk dst.files ig false src.files dst with
  | error err => rw [hw] at h; simp at h
  | ok out =>
    obtain ⟨cs, dst1, tr1⟩ := out
    rcases localWalk_ok hw with ⟨rfl, htr1⟩
    simp only [if_false, Bool.false_eq_true] at htr1
    subst htr1
    rw [hw] at h
    simp only at h
    refine ⟨dst1, rfl, ?_⟩
    cases del with
    | false =>
      simp only [Bool.false_eq_true, if_false] at h ⊢
      simp only [Except.ok.injEq, Prod.mk.injEq] at h
      obtain ⟨h1, h2, h3⟩ := h
      exact ⟨h1.symm, h2.symm, by simp [h3.symm]⟩
    | true =>
      rw [deletePass_spec] at h
      simp only [Bool.false_eq_true, if_false, if_true] at h ⊢
      simp only [Except.ok.injEq, Prod.mk.injEq] at h
      obtain ⟨h1, h2, h3⟩ := h
      exact ⟨h1.symm, h2.symm, h3.symm⟩

theorem s3Push_dry (bucket : Bucket) (lf : FS) (ig : List String) (del : Bool) :
    s3Push bucket lf ig del true =
      (⟨plannedCopies bucket ig lf.files,
        if del then plannedDeletes ig (seenKeys lf.files ig) bucket else []⟩,
       bucket, []) := by
  simp only [s3Push]
  rw [s3PushWalk_eq]
  cases del <;> simp [deletePass_spec]

theorem s3Push_live (bucket : Bucket) (lf : FS) (ig : List String) (del : Bool) :
    s3Push bucket lf ig del false =
      (⟨plannedCopies bucket ig lf.files,
        if del then plannedDeletes ig (seenKeys lf.files ig) bucket else []⟩,
       (if del then
          (plannedDeletes ig (seenKeys lf.files ig) bucket).foldl bucketRemove
            (pushApply (lf.files.filter
              (fun e => !is_ignored e.1 ig && copyCond bucket e.1 e.2)) bucket)
        else pushApply (lf.files.filter
              (fun e => !is_ignored e.1 ig && copyCond bucket e.1 e.2)) bucket),
       (plannedCopies bucket ig lf.files).map TraceOp.copyOp ++
         (if del then
            (plannedDeletes ig (seenKeys lf.files ig) bucket).map TraceOp.deleteOp
          else [])) := by
  simp only [s3Push]
  rw [s3PushWalk_eq]
  cases del <;> simp [deletePass_spec]

theorem s3Pull_dry (bucket : Bucket) (lf : FS) (ig : List String) (del : Bool) :
    s3Pull bucket lf ig del true =
      Except.ok (⟨pullPlannedCopies ig lf bucket,
          if del then plannedDeletes ig (seenKeys bucket ig) lf.files else []⟩,
        lf, []) := by
  unfold s3Pull
  rw [pullWalk_dry]
  simp only [Bind.bind, Except.bind]
  cases del <;> simp [deletePass_spec]

theorem s3Pull_live_ok {bucket : Bucket} {lf : FS} {ig : List String} {del : Bool}
    {p : SyncPlan} {st : FS} {tr : List TraceOp}
    (h : s3Pull bucket lf ig del false = Except.ok (p, st, tr)) :
    ∃ cs lfs1 tr1,
      pullWalk ig false bucket lf = Except.ok (cs, lfs1, tr1) ∧
      p = ⟨cs, if del then plannedDeletes ig (seenKeys bucket ig) lfs1.files else []⟩ ∧
      st = (if del then
              (plannedDeletes ig (seenKeys bucket ig) lfs1.files).foldl fsRemove lfs1
            else lfs1) ∧
      tr = tr1 ++ (if del then
              (plannedDeletes ig (seenKeys bucket ig) lfs1.files).map TraceOp.deleteOp
            else []) := by
  unfold s3Pull at h
  simp only [Bind.bind, Except.bind] at h
  cases hw : pullWalk ig false bucket lf with
  | error err => rw [hw] at h; simp at h
  | ok out =>
    obtain ⟨cs, lfs1, tr1⟩ := out
    rw [hw] at h
    simp only at h
    refine ⟨cs, lfs1, tr1, rfl, ?_⟩
    cases del with
    | false =>
      simp only [Bool.false_eq_true, if_false] at h ⊢
      simp only [Except.ok.injEq, Prod.mk.injEq] at h
      obtain ⟨h1, h2, h3⟩ := h
      exact ⟨h1.symm, h2.symm, by simp [h3.symm]⟩
    | true =>
      rw [deletePass_spec] at h
      simp only [Bool.false_eq_true, if_false, if_true] at h ⊢
      simp only [Except.ok.injEq, Prod.mk.injEq] at h
      obtain ⟨h1, h2, h3⟩ := h
      exact ⟨h1.symm, h2.symm, h3.symm⟩

theorem pullWalk_live_files {ig : List String} :
    ∀ {l : List (String × Nat)} {lfs : FS} {cs : List String} {l' : FS} {tr : List TraceOp},
      pullWalk ig false l lfs = Except.ok (cs, l', tr) →
      ∃ newE : List (String × Nat), l'.files = lfs.files ++ newE ∧
        ∀ x ∈ newE, memStr x.1 (seenKeys l ig) = true := by
  intro l
  induction l with
  | nil =>
    intro lfs cs l' tr h
    simp only [pullWalk, Except.ok.injEq, Prod.mk.injEq] at h
    obtain ⟨-, h2, -⟩ := h
    subst h2
    exact ⟨[], by simp, by simp⟩
  | cons e rest ih =>
    intro lfs cs l' tr h
    by_cases hig : is_ignored e.1 ig
    · simp only [pullWalk, hig, if_true] at h
      rcases ih h with ⟨newE, h1, h2⟩
      refine ⟨newE, h1, fun x hx => ?_⟩
      rw [seenKeys_cons_neg hig]
      exact h2 x hx
    · have hig' : is_ignored e.1 ig = false := by
        cases hb : is_ignored e.1 ig with
        | false => rfl
        | true => exact absurd hb hig
      by_cases hex : fsExists lfs e.1
      · simp only [pullWalk, hig, hex, Bool.not_true, if_false] at h
        rcases ih h with ⟨newE, h1, h2⟩
        refine ⟨newE, h1, fun x hx => ?_⟩
        rw [seenKeys_cons_pos hig']
        exact memStr_cons_of (h2 x hx)
      · simp only [pullWalk, hig, hex, if_true, if_false, Bool.not_false] at h
        simp only [Bind.bind, Except.bind] at h
        cases hmk : osMakedirs lfs e.1 with
        | error err => rw [hmk] at h; simp at h
        | ok lfs1 =>
          rw [hmk] at h
          simp only at h
          rcases osMakedirs_ok hmk with ⟨hf1, -, -⟩
          have hnone : lookupRel lfs1.files e.1 = none := by
            rw [hf1]
            have : (lookupRel lfs.files e.1).isSome = false := by
              cases hb : (lookupRel lfs.files e.1).isSome with
              | false => rfl
              | true =>
                exact absurd (Bool.or_eq_true_iff.mpr (Or.inl hb)) (by simpa [fsExists] using hex)
            cases hv : lookupRel lfs.files e.1 with
            | none => rfl
            | some v => rw [hv] at this; simp at this
          have hset : setFile lfs1.files e.1 e.2 = lfs.files ++ [(e.1, e.2)] := by
            unfold setFile
            rw [hnone]
            simp [hf1]
          cases hrec : pullWalk ig false rest { lfs1 with files := setFile lfs1.files e.1 e.2 } with
          | error err => rw [hrec] at h; simp at h
          | ok out =>
            obtain ⟨cs0, l0, tr0⟩ := out
            rw [hrec] at h
            simp only [Except.ok.injEq, Prod.mk.injEq] at h
            obtain ⟨-, rfl, -⟩ := h
            rcases ih hrec with ⟨newE, h1, h2⟩
            refine ⟨(e.1, e.2) :: newE, ?_, fun x hx => ?_⟩
            · rw [h1]
              show setFile lfs1.files e.1 e.2 ++ newE = _
              rw [hset, List.append_assoc]
              rfl
            · rw [seenKeys_cons_pos hig']
              rcases List.mem_cons.mp hx with rfl | hx'
              · rw [memStr_iff]; exact List.mem_cons_self _ _
              · exact memStr_cons_of (h2 x hx')

theorem localStorage_sync_folder_ok
    {selfF : FS} {fps : List String} {lf : Option FS} {mode : String}
    {del dry : Bool} {extra : Option (List String)}
    {p : SyncPlan} {s l : FS} {tr : List TraceOp}
    (h : LocalStorage.sync_folder selfF fps lf mode del dry extra = Except.ok (p, s, l, tr)) :
    ∃ src dst st',
      localSyncCore src dst (load_ignore_patterns fps extra) del dry =
        Except.ok (p, st', tr) := by
  unfold LocalStorage.sync_folder at h
  split at h
  · simp at h
  · split at h
    · cases lf with
      | none => simp at h
      | some lf0 =>
        simp only [Bind.bind, Except.bind] at h
        cases hc : localSyncCore lf0 selfF (load_ignore_patterns fps extra) del dry with
        | error err => rw [hc] at h; simp at h
        | ok out =>
          obtain ⟨plan0, dst', trc⟩ := out
          rw [hc] at h
          simp only [Except.ok.injEq, Prod.mk.injEq] at h
          obtain ⟨h1, -, -, h4⟩ := h
          exact ⟨lf0, selfF, dst', by rw [hc, h1, h4]⟩
    · simp only [Bind.bind, Except.bind] at h
      cases hc : localSyncCore selfF (lf.getD ⟨[], []⟩) (load_ignore_patterns fps extra) del dry with
      | error err => rw [hc] at h; simp at h
      | ok out =>
        obtain ⟨plan0, dst', trc⟩ := out
        rw [hc] at h
        simp only [Except.ok.injEq, Prod.mk.injEq] at h
        obtain ⟨h1, -, -, h4⟩ := h
        exact ⟨selfF, lf.getD ⟨[], []⟩, dst', by rw [hc, h1, h4]⟩

theorem s3Storage_sync_folder_ok
    {bucket : Bucket} {fps : List String} {lf : Option FS} {mode : String}
    {del dry : Bool} {extra : Option (List String)}
    {p : SyncPlan} {b' : Bucket} {l' : FS} {tr : List TraceOp}
    (h : S3Storage.sync_folder bucket fps lf mode del dry extra = Except.ok (p, b', l', tr)) :
    (∃ lf0 b2, s3Push bucket lf0 (load_ignore_patterns fps extra) del dry = (p, b2, tr)) ∨
    (∃ lf0 l2, s3Pull bucket lf0 (load_ignore_patterns fps extra) del dry =
        Except.ok (p, l2, tr)) := by
  unfold S3Storage.sync_folder at h
  split at h
  · simp at h
  · split at h
    · cases lf with
      | none => simp at h
      | some lf0 =>
        simp only at h
        rcases hps : s3Push bucket lf0 (load_ignore_patterns fps extra) del dry with
          ⟨plan0, b20, tr0⟩
        rw [hps] at h
        simp only at h
        simp only [Except.ok.injEq, Prod.mk.injEq] at h
        obtain ⟨h1, -, -, h4⟩ := h
        exact Or.inl ⟨lf0, b20, by rw [hps, h1, h4]⟩
    · simp only [Bind.bind, Except.bind] at h
      cases hc : s3Pull bucket (lf.getD ⟨[], []⟩) (load_ignore_patterns fps extra) del dry with
      | error err => rw [hc] at h; simp at h
      | ok out =>
        obtain ⟨plan0, l2, tr0⟩ := out
        rw [hc] at h
        simp only [Except.ok.injEq, Prod.mk.injEq] at h
        obtain ⟨h1, -, -, h4⟩ := h
        exact Or.inr ⟨lf.getD ⟨[], []⟩, l2, by rw [hc, h1, h4]⟩

/-! ## Claims -/

/-- Claim C4: for every sync call on either backend, a mode other than
`push`/`pull` fails with `InvalidArgument`, and `push` with a missing local
tree root fails with `NotFound`; in both cases the call returns the error
directly — no plan is built and no destination state is touched or
returned. -/
theorem claim_C4 :
    (∀ (selfFolder : FS) (fps : List String) (lf : Option FS) (mode : String)
        (del dry : Bool) (extra : Option (List String)),
      mode ≠ "push" → mode ≠ "pull" →
      LocalStorage.sync_folder selfFolder fps lf mode del dry extra =
        Except.error Err.invalidArgument) ∧
    (∀ (bucket : Bucket) (fps : List String) (lf : Option FS) (mode : String)
        (del dry : Bool) (extra : Option (List String)),
      mode ≠ "push" → mode ≠ "pull" →
      S3Storage.sync_folder bucket fps lf mode del dry extra =
        Except.error Err.invalidArgument) ∧
    (∀ (selfFolder : FS) (fps : List String) (del dry : Bool)
        (extra : Option (List String)),
      LocalStorage.sync_folder selfFolder fps none "push" del dry extra =
        Except.error Err.notFound) ∧
    (∀ (bucket : Bucket) (fps : List String) (del dry : Bool)
        (extra : Option (List String)),
      S3Storage.sync_folder bucket fps none "push" del dry extra =
        Except.error Err.notFound) := by
  refine ⟨?_, ?_, ?_, ?_⟩
  · intro selfF fps lf mode del dry extra h1 h2
    unfold LocalStorage.sync_folder
    rw [if_pos ⟨h1, h2⟩]
  · intro bucket fps lf mode del dry extra h1 h2
    unfold S3Storage.sync_folder
    rw [if_pos ⟨h1, h2⟩]
  · intro selfF fps del dry extra
    unfold LocalStorage.sync_folder
    rw [if_neg (by simp), if_pos rfl]
  · intro bucket fps del dry extra
    unfold S3Storage.sync_folder
    rw [if_neg (by simp), if_pos rfl]

/-- Witness for C4 at concrete inputs: the mode `"both"` is rejected with
`InvalidArgument`, and a push from a nonexistent local root is rejected with
`NotFound`. -/
theorem claim_C4_witness :
    LocalStorage.sync_folder ⟨[], []⟩ [] (some ⟨[], []⟩) "both" true true none =
      Except.error Err.invalidArgument ∧
    S3Storage.sync_folder [] [] none "push" false false none =
      Except.error Err.notFound :=
  ⟨claim_C4.1 ⟨[], []⟩ [] (some ⟨[], []⟩) "both" true true none
      (by decide) (by decide),
   claim_C4.2.2.2 [] [] false false none⟩

/-- Claim C6 (amended): `is_ignored` returns true iff some pattern
glob-matches the whole path — this is attempted for *every* pattern,
including those ending in `/` — or the pattern ends in `/` and is a literal
string prefix of the path.  (The claim as stated, which restricts glob
matching to patterns not ending in `/`, fails: see the counterexample.) -/
theorem claim_C6 (path : String) (patterns : List String) :
    is_ignored path patterns = true ↔
      ∃ pattern ∈ patterns,
        fnmatch path pattern = true ∨
          (strEndsWith pattern "/" = true ∧ strStartsWith path pattern = true) := by
  simp [is_ignored, List.any_eq_true, Bool.or_eq_true_iff, Bool.and_eq_true]

/-- Counterexample to C6 as stated: for the path `a/` and the pattern `?/`,
the code returns true (the pattern glob-matches the whole path even though
it ends in `/`), while the claimed rule — prefix test only for patterns
ending in `/` — returns false. -/
theorem claim_C6_counterexample :
    is_ignored "a/" ["?/"] = true ∧ specIgnoredRule "a/" ["?/"] = false :=
  ⟨by decide, by decide⟩

/-- Claim C7: the filesystem backend's delete returns true exactly when an
entry with that name existed (as a file) and was removed, false when nothing
exists under the name; the object-store backend's delete returns true
unconditionally. -/
theorem claim_C7 :
    (∀ (folder : FS) (name : String) (r : Bool) (st : FS),
      LocalStorage.delete folder name = Except.ok (r, st) →
      (r = true ↔ (lookupRel folder.files name).isSome = true) ∧
      (r = true → st = fsRemove folder name) ∧
      (r = false → st = folder)) ∧
    (∀ (bucket : Bucket) (name : String), (S3Storage.delete bucket name).1 = true) := by
  constructor
  · intro folder name r st h
    unfold LocalStorage.delete at h
    split at h
    · rename_i hex
      split at h
      · rename_i hsome
        simp only [Except.ok.injEq, Prod.mk.injEq] at h
        obtain ⟨h1, h2⟩ := h
        subst h1
        refine ⟨by simp [hsome], fun _ => h2.symm, by simp⟩
      · simp at h
    · rename_i hex
      simp only [Except.ok.injEq, Prod.mk.injEq] at h
      obtain ⟨h1, h2⟩ := h
      subst h1; subst h2
      have hnone : (lookupRel folder.files name).isSome = false := by
        cases hb : (lookupRel folder.files name).isSome with
        | false => rfl
        | true =>
          exact absurd (Bool.or_eq_true_iff.mpr (Or.inl hb))
            (by simpa [fsExists] using hex)
      exact ⟨by simp [hnone], by simp, fun _ => rfl⟩
  · intro bucket name
    rfl

/-- Witness for C7 at concrete inputs: deleting an existing file returns
true and removes it; deleting a missing name returns false and leaves the
folder unchanged; the S3 delete of a missing key still returns true. -/
theorem claim_C7_witness :
    ((true = true ↔ (lookupRel [("f", 3)] "f").isSome = true) ∧
      (true = true → (⟨[], []⟩ : FS) = fsRemove ⟨[("f", 3)], []⟩ "f") ∧
      (true = false → (⟨[], []⟩ : FS) = ⟨[("f", 3)], []⟩)) ∧
    (S3Storage.delete [("k", 1)] "zzz").1 = true :=
  ⟨claim_C7.1 ⟨[("f", 3)], []⟩ "f" true ⟨[], []⟩ (by decide),
   claim_C7.2 [("k", 1)] "zzz"⟩

/-- Claim C8 (amended): the facade forwards `local_folder`, `mode` and
`delete` unchanged to the selected backend's sync, but it does not accept
`dry_run` or `ignore_patterns`: the backend always runs with
`dry_run=False` and no extra ignore patterns.  (The claim as stated — the
facade accepts and forwards all five parameters — fails: see the
counterexample.) -/
theorem claim_C8 :
    (∀ (selfFolder : FS) (fps : List String) (lf : Option FS) (mode : String)
        (del : Bool),
      Storage.sync_folder_local selfFolder fps lf mode del =
        LocalStorage.sync_folder selfFolder fps lf mode del false none) ∧
    (∀ (bucket : Bucket) (fps : List String) (lf : Option FS) (mode : String)
        (del : Bool),
      Storage.sync_folder_s3 bucket fps lf mode del =
        S3Storage.sync_folder bucket fps lf mode del false none) :=
  ⟨fun _ _ _ _ _ => rfl, fun _ _ _ _ _ => rfl⟩

/-- Counterexample to C8 as stated: a facade sync call mutates the
destination (it cannot request a dry run), so it differs from the backend
call with `dry_run=True` — `dry_run` is not part of the facade's surface
and is not forwarded. -/
theorem claim_C8_counterexample :
    Storage.sync_folder_local ⟨[], []⟩ [] (some ⟨[("a", 1)], []⟩) "push" false =
      Except.ok (⟨["a"], []⟩, ⟨[("a", 1)], []⟩, ⟨[("a", 1)], []⟩,
        [TraceOp.copyOp "a"]) ∧
    LocalStorage.sync_folder ⟨[], []⟩ [] (some ⟨[("a", 1)], []⟩) "push" false true none =
      Except.ok (⟨["a"], []⟩, ⟨[], []⟩, ⟨[("a", 1)], []⟩, []) ∧
    (Except.ok (⟨["a"], []⟩, ⟨[("a", 1)], []⟩, ⟨[("a", 1)], []⟩,
        [TraceOp.copyOp "a"]) : Except Err (SyncPlan × FS × FS × List TraceOp)) ≠
      Except.ok (⟨["a"], []⟩, ⟨[], []⟩, ⟨[("a", 1)], []⟩, []) :=
  ⟨by decide, by decide, by decide⟩

/-- Claim C9: on both backends, `max_size = 0` disables the size check
entirely — no upload ever fails with `SizeExceeded`, whatever the source
file's size. -/
theorem claim_C9 :
    (∀ (folder : FS) (fileEx : Bool) (fp : String) (size : Nat)
        (mime : Option String) (fn : Option String) (uu ud : Bool)
        (us dp : String) (al : Option (List (Option String))),
      LocalStorage.upload folder fileEx fp size mime fn uu ud us dp al (some 0) ≠
        Except.error Err.sizeExceeded) ∧
    (∀ (bucket : Bucket) (fileEx : Bool) (fp : String) (size : Nat)
        (mime : Option String) (fn : Option String) (uu ud : Bool)
        (us dp : String) (al : Option (List (Option String))) (safe : Bool),
      S3Storage.upload bucket fileEx fp size mime fn uu ud us dp al (some 0) safe ≠
        Except.error Err.sizeExceeded) := by
  constructor
  · intro folder fileEx fp size mime fn uu ud us dp al heq
    unfold LocalStorage.upload at heq
    split at heq
    · simp at heq
    · split at heq
      · rename_i hsz
        simp [truthyNat] at hsz
      · split at heq
        · simp at heq
        · simp only [Bind.bind, Except.bind] at heq
          cases hmk : osMakedirs folder (resolveUploadName fp fn uu ud us dp) with
          | error e =>
            rw [hmk] at heq
            unfold osMakedirs at hmk
            rw [mkdirsChain_error hmk] at heq
            simp at heq
          | ok f1 =>
            rw [hmk] at heq
            simp only at heq
            cases hcp : shutilCopy2 f1 (resolveUploadName fp fn uu ud us dp) size with
            | error e =>
              rw [hcp] at heq
              rw [shutilCopy2_error hcp] at heq
              simp at heq
            | ok f2 =>
              rw [hcp] at heq
              simp at heq
  · intro bucket fileEx fp size mime fn uu ud us dp al safe heq
    unfold S3Storage.upload at heq
    split at heq
    · simp at heq
    · split at heq
      · rename_i hsz
        simp [truthyNat] at hsz
      · split at heq
        · simp at heq
        · simp at heq

/-- Witness for C9 at a concrete input: an upload of a 999-byte file with
`max_size = 0` succeeds — the zero limit disables the size check. -/
theorem claim_C9_witness :
    LocalStorage.upload ⟨[], []⟩ true "f.bin" 999 none none false false "" "" none
        (some 0) = Except.ok ("f.bin", ⟨[("f.bin", 999)], []⟩) ∧
    LocalStorage.upload ⟨[], []⟩ true "f.bin" 999 none none false false "" "" none
        (some 0) ≠ Except.error Err.sizeExceeded :=
  ⟨by decide, claim_C9.1 ⟨[], []⟩ true "f.bin" 999 none none false false "" "" none⟩

/-- Claim C10: on both backends, when a non-empty `allowed_types`
collection is given and no MIME type could be guessed, the upload fails
with `UnsupportedType` — unless the collection explicitly contains the
no-type value `None`, in which case the call never fails with
`UnsupportedType`. -/
theorem claim_C10 :
    (∀ (folder : FS) (fp : String) (size : Nat) (fn : Option String)
        (uu ud : Bool) (us dp : String) (al : List (Option String))
        (ms : Option Nat),
      (truthyNat ms && decide (size > ms.getD 0)) = false →
      al ≠ [] →
      ((none ∉ al →
          LocalStorage.upload folder true fp size none fn uu ud us dp (some al) ms =
            Except.error Err.unsupportedType) ∧
       (none ∈ al →
          LocalStorage.upload folder true fp size none fn uu ud us dp (some al) ms ≠
            Except.error Err.unsupportedType))) ∧
    (∀ (bucket : Bucket) (fp : String) (size : Nat) (fn : Option String)
        (uu ud : Bool) (us dp : String) (al : List (Option String))
        (ms : Option Nat) (safe : Bool),
      (truthyNat ms && decide (size > ms.getD 0)) = false →
      al ≠ [] →
      ((none ∉ al →
          S3Storage.upload bucket true fp size none fn uu ud us dp (some al) ms safe =
            Except.error Err.unsupportedType) ∧
       (none ∈ al →
          S3Storage.upload bucket true fp size none fn uu ud us dp (some al) ms safe ≠
            Except.error Err.unsupportedType))) := by
  constructor
  · intro folder fp size fn uu ud us dp al ms hsz hne
    have htr : truthyList (some al) = true := by
      cases al with
      | nil => exact absurd rfl hne
      | cons a l => rfl
    constructor
    · intro hnmem
      have hany : (al.any (fun t => t = none)) = false := by
        cases hb : al.any (fun t => t = (none : Option String)) with
        | false => rfl
        | true =>
          rcases List.any_eq_true.mp hb with ⟨x, hx, hxe⟩
          rw [decide_eq_true_eq] at hxe
          exact absurd (hxe ▸ hx) hnmem
      unfold LocalStorage.upload
      rw [if_neg (by simp), if_neg (by simp [hsz]), if_pos (by simp [htr, hany])]
    · intro hmem heq
      have hany : (al.any (fun t => t = (none : Option String))) = true :=
        List.any_eq_true.mpr ⟨none, hmem, by simp⟩
      unfold LocalStorage.upload at heq
      rw [if_neg (by simp), if_neg (by simp [hsz]),
        if_neg (by simp [htr, hany])] at heq
      simp only [Bind.bind, Except.bind] at heq
      cases hmk : osMakedirs folder (resolveUploadName fp fn uu ud us dp) with
      | error e =>
        rw [hmk] at heq
        unfold osMakedirs at hmk
        rw [mkdirsChain_error hmk] at heq
        simp at heq
      | ok f1 =>
        rw [hmk] at heq
        simp only at heq
        cases hcp : shutilCopy2 f1 (resolveUploadName fp fn uu ud us dp) size with
        | error e =>
          rw [hcp] at heq
          rw [shutilCopy2_error hcp] at heq
          simp at heq
        | ok f2 =>
          rw [hcp] at heq
          simp at heq
  · intro bucket fp size fn uu ud us dp al ms safe hsz hne
    have htr : truthyList (some al) = true := by
      cases al with
      | nil => exact absurd rfl hne
      | cons a l => rfl
    constructor
    · intro hnmem
      have hany : (al.any (fun t => t = (none : Option String))) = false := by
        cases hb : al.any (fun t => t = (none : Option String)) with
        | false => rfl
        | true =>
          rcases List.any_eq_true.mp hb with ⟨x, hx, hxe⟩
          rw [decide_eq_true_eq] at hxe
          exact absurd (hxe ▸ hx) hnmem
      unfold S3Storage.upload
      rw [if_neg (by simp), if_neg (by simp [hsz]), if_pos (by simp [htr, hany])]
    · intro hmem heq
      have hany : (al.any (fun t => t = (none : Option String))) = true :=
        List.any_eq_true.mpr ⟨none, hmem, by simp⟩
      unfold S3Storage.upload at heq
      rw [if_neg (by simp), if_neg (by simp [hsz]),
        if_neg (by simp [htr, hany])] at heq
      simp at heq

/-- Witness for C10 at concrete inputs: with `allowed_types` given and no
MIME type detected, the upload is rejected with `UnsupportedType` when the
collection does not contain `None`, and is not so rejected when it does. -/
theorem claim_C10_witness :
    (LocalStorage.upload ⟨[], []⟩ true "f.xyz" 1 none none false false "" ""
        (some [some "text/plain"]) none = Except.error Err.unsupportedType) ∧
    (LocalStorage.upload ⟨[], []⟩ true "f.xyz" 1 none none false false "" ""
        (some [none]) none ≠ Except.error Err.unsupportedType) :=
  ⟨(claim_C10.1 ⟨[], []⟩ "f.xyz" 1 none false false "" "" [some "text/plain"] none
      (by decide) (by decide)).1 (by decide),
   (claim_C10.1 ⟨[], []⟩ "f.xyz" 1 none false false "" "" [none] none
      (by decide) (by decide)).2 (by decide)⟩

theorem localSyncCore_ignored {src dst : FS} {ig : List String} {del dry : Bool}
    {p : SyncPlan} {st : FS} {tr : List TraceOp} {q : String}
    (h : localSyncCore src dst ig del dry = Except.ok (p, st, tr))
    (hq : is_ignored q ig = true) :
    q ∉ p.copy ∧ q ∉ p.delete ∧ TraceOp.copyOp q ∉ tr ∧ TraceOp.deleteOp q ∉ tr := by
  have hcopy : ∀ x ∈ plannedCopies dst.files ig src.files, x ≠ q := by
    intro x hx hxq
    rcases mem_plannedCopies hx with ⟨hig, -⟩
    rw [hxq, hq] at hig
    cases hig
  have hdel : ∀ x ∈ plannedDeletes ig (seenKeys src.files ig) dst.files, x ≠ q := by
    intro x hx hxq
    rcases mem_plannedDeletes hx with ⟨-, hig, -⟩
    rw [hxq, hq] at hig
    cases hig
  cases dry with
  | true =>
    rw [localSyncCore_dry] at h
    simp only [Except.ok.injEq, Prod.mk.injEq] at h
    obtain ⟨h1, -, h3⟩ := h
    refine ⟨?_, ?_, ?_, ?_⟩
    · rw [← h1]; exact fun hx => hcopy q hx rfl
    · rw [← h1]
      cases del with
      | false => simp
      | true => exact fun hx => hdel q hx rfl
    · rw [← h3]; simp
    · rw [← h3]; simp
  | false =>
    rcases localSyncCore_live_ok h with ⟨dst1, -, hp, -, htr⟩
    subst hp; subst htr
    refine ⟨fun hx => hcopy q hx rfl, ?_, ?_, ?_⟩
    · cases del with
      | false => simp
      | true =>
        simp only [if_true]
        exact fun hx => hdel q hx rfl
    · intro hx
      rcases List.mem_append.mp hx with hx' | hx'
      · rcases List.mem_map.mp hx' with ⟨x, hxm, hxe⟩
        cases hxe
        exact hcopy q hxm rfl
      · cases del with
        | false => simp at hx'
        | true =>
          simp only [if_true] at hx'
          rcases List.mem_map.mp hx' with ⟨x, -, hxe⟩
          cases hxe
    · intro hx
      rcases List.mem_append.mp hx with hx' | hx'
      · rcases List.mem_map.mp hx' with ⟨x, -, hxe⟩
        cases hxe
      · cases del with
        | false => simp at hx'
        | true =>
          simp only [if_true] at hx'
          rcases List.mem_map.mp hx' with ⟨x, hxm, hxe⟩
          cases hxe
          exact hdel q hxm rfl

theorem s3Push_ignored {bucket : Bucket} {lf : FS} {ig : List String} {del dry : Bool}
    {p : SyncPlan} {b2 : Bucket} {tr : List TraceOp} {q : String}
    (h : s3Push bucket lf ig del dry = (p, b2, tr)) (hq : is_ignored q ig = true) :
    q ∉ p.copy ∧ q ∉ p.delete ∧ TraceOp.copyOp q ∉ tr ∧ TraceOp.deleteOp q ∉ tr := by
  have hcopy : ∀ x ∈ plannedCopies bucket ig lf.files, x ≠ q := by
    intro x hx hxq
    rcases mem_plannedCopies hx with ⟨hig, -⟩
    rw [hxq, hq] at hig
    cases hig
  have hdel : ∀ x ∈ plannedDeletes ig (seenKeys lf.files ig) bucket, x ≠ q := by
    intro x hx hxq
    rcases mem_plannedDeletes hx with ⟨-, hig, -⟩
    rw [hxq, hq] at hig
    cases hig
  cases dry with
  | true =>
    rw [s3Push_dry] at h
    simp only [Prod.mk.injEq] at h
    obtain ⟨h1, -, h3⟩ := h
    refine ⟨?_, ?_, ?_, ?_⟩
    · rw [← h1]; exact fun hx => hcopy q hx rfl
    · rw [← h1]
      cases del with
      | false => simp
      | true => exact fun hx => hdel q hx rfl
    · rw [← h3]; simp
    · rw [← h3]; simp
  | false =>
    rw [s3Push_live] at h
    simp only [Prod.mk.injEq] at h
    obtain ⟨h1, -, h3⟩ := h
    refine ⟨?_, ?_, ?_, ?_⟩
    · rw [← h1]; exact fun hx => hcopy q hx rfl
    · rw [← h1]
      cases del with
      | false => simp
      | true => exact fun hx => hdel q hx rfl
    · rw [← h3]
      intro hx
      rcases List.mem_append.mp hx with hx' | hx'
      · rcases List.mem_map.mp hx' with ⟨x, hxm, hxe⟩
        cases hxe
        exact hcopy q hxm rfl
      · cases del with
        | false => simp at hx'
        | true =>
          simp only [if_true] at hx'
          rcases List.mem_map.mp hx' with ⟨x, -, hxe⟩
          cases hxe
    · rw [← h3]
      intro hx
      rcases List.mem_append.mp hx with hx' | hx'
      · rcases List.mem_map.mp hx' with ⟨x, -, hxe⟩
        cases hxe
      · cases del with
        | false => simp at hx'
        | true =>
          simp only [if_true] at hx'
          rcases List.mem_map.mp hx' with ⟨x, hxm, hxe⟩
          cases hxe
          exact hdel q hxm rfl

theorem s3Pull_ignored {bucket : Bucket} {lf : FS} {ig : List String} {del dry : Bool}
    {p : SyncPlan} {st : FS} {tr : List TraceOp} {q : String}
    (h : s3Pull bucket lf ig del dry = Except.ok (p, st, tr))
    (hq : is_ignored q ig = true) :
    q ∉ p.copy ∧ q ∉ p.delete ∧ TraceOp.copyOp q ∉ tr ∧ TraceOp.deleteOp q ∉ tr := by
  cases dry with
  | true =>
    rw [s3Pull_dry] at h
    simp only [Except.ok.injEq, Prod.mk.injEq] at h
    obtain ⟨h1, -, h3⟩ := h
    refine ⟨?_, ?_, ?_, ?_⟩
    · rw [← h1]
      intro hx
      rcases mem_pullPlannedCopies hx with ⟨hig, -⟩
      rw [hq] at hig
      cases hig
    · rw [← h1]
      cases del with
      | false => simp
      | true =>
        intro hx
        rcases mem_plannedDeletes hx with ⟨-, hig, -⟩
        rw [hq] at hig
        cases hig
    · rw [← h3]; simp
    · rw [← h3]; simp
  | false =>
    rcases s3Pull_live_ok h with ⟨cs, lfs1, tr1, hw, hp, -, htr⟩
    rcases pullWalk_ok_trace hw with ⟨hcs, htr1⟩
    simp only [Bool.false_eq_true, if_false] at htr1
    subst hp; subst htr; subst htr1
    have hcopy : q ∉ cs := by
      intro hx
      have := hcs q hx
      rw [hq] at this
      cases this
    have hdel : ∀ x ∈ plannedDeletes ig (seenKeys bucket ig) lfs1.files, x ≠ q := by
      intro x hx hxq
      rcases mem_plannedDeletes hx with ⟨-, hig, -⟩
      rw [hxq, hq] at hig
      cases hig
    refine ⟨hcopy, ?_, ?_, ?_⟩
    · cases del with
      | false => simp
      | true =>
        simp only [if_true]
        exact fun hx => hdel q hx rfl
    · intro hx
      rcases List.mem_append.mp hx with hx' | hx'
      · rcases List.mem_map.mp hx' with ⟨x, hxm, hxe⟩
        cases hxe
        exact hcopy hxm
      · cases del with
        | false => simp at hx'
        | true =>
          simp only [if_true] at hx'
          rcases List.mem_map.mp hx' with ⟨x, -, hxe⟩
          cases hxe
    · intro hx
      rcases List.mem_append.mp hx with hx' | hx'
      · rcases List.mem_map.mp hx' with ⟨x, -, hxe⟩
        cases hxe
      · cases del with
        | false => simp at hx'
        | true =>
          simp only [if_true] at hx'
          rcases List.mem_map.mp hx' with ⟨x, hxm, hxe⟩
          cases hxe
          exact hdel q hxm rfl

/-- Claim C1 (amended): in local sync — both modes run the same core — and
in S3 push, an entry is classified "copy" iff it is not ignored and its
path is absent from the destination metadata snapshot or its recorded size
differs.  In S3 pull the rule is *not* the same: a key is copied iff its
destination path does not exist (as a file or a directory) when it is
examined — sizes are never compared; in a dry run this is existence in the
initial local tree.  (The claim as stated — the same absent-or-size-differs
rule in both directions, including pull — fails: see the counterexample.) -/
theorem claim_C1 :
    (∀ (src dst : FS) (ig : List String) (del dry : Bool) (p : SyncPlan)
        (st : FS) (tr : List TraceOp),
      localSyncCore src dst ig del dry = Except.ok (p, st, tr) →
      p.copy = plannedCopies dst.files ig src.files) ∧
    (∀ (bucket : Bucket) (lf : FS) (ig : List String) (del dry : Bool),
      (s3Push bucket lf ig del dry).1.copy = plannedCopies bucket ig lf.files) ∧
    (∀ (bucket : Bucket) (lf : FS) (ig : List String) (del : Bool) (p : SyncPlan)
        (st : FS) (tr : List TraceOp),
      s3Pull bucket lf ig del true = Except.ok (p, st, tr) →
      p.copy = pullPlannedCopies ig lf bucket) := by
  refine ⟨?_, ?_, ?_⟩
  · intro src dst ig del dry p st tr h
    cases dry with
    | true =>
      rw [localSyncCore_dry] at h
      simp only [Except.ok.injEq, Prod.mk.injEq] at h
      obtain ⟨h1, -⟩ := h
      rw [← h1]
    | false =>
      rcases localSyncCore_live_ok h with ⟨dst1, -, hp, -, -⟩
      rw [hp]
  · intro bucket lf ig del dry
    cases dry with
    | true => rw [s3Push_dry]
    | false => rw [s3Push_live]
  · intro bucket lf ig del p st tr h
    rw [s3Pull_dry] at h
    simp only [Except.ok.injEq, Prod.mk.injEq] at h
    obtain ⟨h1, -⟩ := h
    rw [← h1]

/-- Counterexample to C1 as stated: an S3 pull with the key `a` of size 5
in the bucket and a local file `a` of size 3 produces an empty copy list,
although the entry's size differs from the destination record (so the
claimed absent-or-size-differs rule would classify it "copy"), and the
entry is not ignored. -/
theorem claim_C1_counterexample :
    S3Storage.sync_folder [("a", 5)] [] (some ⟨[("a", 3)], []⟩) "pull" false true none =
      Except.ok (⟨[], []⟩, [("a", 5)], ⟨[("a", 3)], []⟩, []) ∧
    copyCond [("a", 3)] "a" 5 = true ∧
    is_ignored "a" (load_ignore_patterns [] none) = false :=
  ⟨by decide, by decide, by decide⟩

/-- Witness for C1 at a concrete input: a dry push of one file into an
empty destination plans exactly the entries selected by the
absent-or-size-differs rule. -/
theorem claim_C1_witness :
    (⟨["a"], []⟩ : SyncPlan).copy = plannedCopies [] [] [("a", 2)] :=
  claim_C1.1 ⟨[("a", 2)], []⟩ ⟨[], []⟩ [] false true ⟨["a"], []⟩ ⟨[], []⟩ []
    (by decide)

/-- Claim C3: on both backends and in both modes, live or dry, a path that
matches the resolved ignore rule set never appears in `plan.copy` or
`plan.delete`, and no transfer or removal is ever executed for it. -/
theorem claim_C3 :
    (∀ (selfFolder : FS) (fps : List String) (lf : Option FS) (mode : String)
        (del dry : Bool) (extra : Option (List String)) (p : SyncPlan) (s l : FS)
        (tr : List TraceOp) (q : String),
      LocalStorage.sync_folder selfFolder fps lf mode del dry extra =
        Except.ok (p, s, l, tr) →
      is_ignored q (load_ignore_patterns fps extra) = true →
      q ∉ p.copy ∧ q ∉ p.delete ∧ TraceOp.copyOp q ∉ tr ∧ TraceOp.deleteOp q ∉ tr) ∧
    (∀ (bucket : Bucket) (fps : List String) (lf : Option FS) (mode : String)
        (del dry : Bool) (extra : Option (List String)) (p : SyncPlan) (b' : Bucket)
        (l' : FS) (tr : List TraceOp) (q : String),
      S3Storage.sync_folder bucket fps lf mode del dry extra =
        Except.ok (p, b', l', tr) →
      is_ignored q (load_ignore_patterns fps extra) = true →
      q ∉ p.copy ∧ q ∉ p.delete ∧ TraceOp.copyOp q ∉ tr ∧ TraceOp.deleteOp q ∉ tr) := by
  constructor
  · intro selfF fps lf mode del dry extra p s l tr q h hq
    rcases localStorage_sync_folder_ok h with ⟨src, dst, st', hc⟩
    exact localSyncCore_ignored hc hq
  · intro bucket fps lf mode del dry extra p b' l' tr q h hq
    rcases s3Storage_sync_folder_ok h with ⟨lf0, b2, hc⟩ | ⟨lf0, l2, hc⟩
    · exact s3Push_ignored hc hq
    · exact s3Pull_ignored hc hq

/-- Witness for C3 at a concrete input: with the single ignore pattern `b`,
the ignored path `b` appears in no plan and no executed operation of a live
push that copies `a`. -/
theorem claim_C3_witness :
    "b" ∉ (⟨["a"], []⟩ : SyncPlan).copy ∧ "b" ∉ (⟨["a"], []⟩ : SyncPlan).delete ∧
    TraceOp.copyOp "b" ∉ [TraceOp.copyOp "a"] ∧
    TraceOp.deleteOp "b" ∉ [TraceOp.copyOp "a"] :=
  claim_C3.1 ⟨[], []⟩ ["b"] (some ⟨[("a", 1), ("b", 2)], []⟩) "push" false false none
    ⟨["a"], []⟩ ⟨[("a", 1)], []⟩ ⟨[("a", 1), ("b", 2)], []⟩ [TraceOp.copyOp "a"] "b"
    (by decide) (by decide)

/-- Claim C2 (amended): a dry-run sync performs no mutation of destination
state and executes no operation, and it returns the very plan a successful
live run returns — unconditionally for local sync (both modes run the same
core) and S3 push; for S3 pull the plans also coincide provided the bucket
keys are distinct and no key is a directory prefix of another key.  Without
that proviso the live and dry plans of an S3 pull can differ, because a
live run's earlier downloads create directories that make a later key's
destination path exist (see the counterexample). -/
theorem claim_C2 :
    (∀ (src dst : FS) (ig : List String) (del : Bool),
      localSyncCore src dst ig del true =
        Except.ok (⟨plannedCopies dst.files ig src.files,
          if del then plannedDeletes ig (seenKeys src.files ig) dst.files else []⟩,
          dst, [])) ∧
    (∀ (src dst : FS) (ig : List String) (del : Bool) (p : SyncPlan) (st : FS)
        (tr : List TraceOp),
      localSyncCore src dst ig del false = Except.ok (p, st, tr) →
      p = ⟨plannedCopies dst.files ig src.files,
           if del then plannedDeletes ig (seenKeys src.files ig) dst.files else []⟩) ∧
    (∀ (bucket : Bucket) (lf : FS) (ig : List String) (del : Bool),
      s3Push bucket lf ig del true =
        (⟨plannedCopies bucket ig lf.files,
          if del then plannedDeletes ig (seenKeys lf.files ig) bucket else []⟩,
         bucket, [])) ∧
    (∀ (bucket : Bucket) (lf : FS) (ig : List String) (del : Bool),
      (s3Push bucket lf ig del false).1 = (s3Push bucket lf ig del true).1) ∧
    (∀ (bucket : Bucket) (lf : FS) (ig : List String) (del : Bool),
      s3Pull bucket lf ig del true =
        Except.ok (⟨pullPlannedCopies ig lf bucket,
          if del then plannedDeletes ig (seenKeys bucket ig) lf.files else []⟩,
          lf, [])) ∧
    (∀ (bucket : Bucket) (lf : FS) (ig : List String) (del : Bool) (p : SyncPlan)
        (st : FS) (tr : List TraceOp),
      (bucket.map Prod.fst).Nodup →
      (∀ e ∈ bucket, ∀ e' ∈ bucket, e.1 ∉ dirChain e'.1) →
      s3Pull bucket lf ig del false = Except.ok (p, st, tr) →
      p = ⟨pullPlannedCopies ig lf bucket,
           if del then plannedDeletes ig (seenKeys bucket ig) lf.files else []⟩) := by
  refine ⟨localSyncCore_dry, ?_, s3Push_dry, ?_, s3Pull_dry, ?_⟩
  · intro src dst ig del p st tr h
    rcases localSyncCore_live_ok h with ⟨dst1, -, hp, -, -⟩
    exact hp
  · intro bucket lf ig del
    rw [s3Push_live, s3Push_dry]
  · intro bucket lf ig del p st tr hnd hpf h
    rcases s3Pull_live_ok h with ⟨cs, lfs1, tr1, hw, hp, -, -⟩
    have hcs : cs = pullPlannedCopies ig lf bucket :=
      pullWalk_live_planned hnd hpf (fun e _ => rfl) hw
    rcases pullWalk_live_files hw with ⟨newE, hfiles, hseen⟩
    have hdels : plannedDeletes ig (seenKeys bucket ig) lfs1.files =
        plannedDeletes ig (seenKeys bucket ig) lf.files := by
      rw [hfiles, plannedDeletes_append,
        plannedDeletes_nil (fun m hm => Or.inl (hseen m hm)), List.append_nil]
    rw [hp, hcs]
    cases del with
    | false => rfl
    | true => rw [hdels]

/-- Counterexample to C2 as stated: pulling the keys `a/b` then `a` into an
empty local tree gives different plans dry and live — the live download of
`a/b` creates the directory `a`, so the key `a` is skipped — while the dry
run plans both. -/
theorem claim_C2_counterexample :
    s3Pull [("a/b", 1), ("a", 1)] ⟨[], []⟩ [] false true =
      Except.ok (⟨["a/b", "a"], []⟩, ⟨[], []⟩, []) ∧
    s3Pull [("a/b", 1), ("a", 1)] ⟨[], []⟩ [] false false =
      Except.ok (⟨["a/b"], []⟩, ⟨[("a/b", 1)], ["a"]⟩, [TraceOp.copyOp "a/b"]) ∧
    (⟨["a/b", "a"], []⟩ : SyncPlan) ≠ ⟨["a/b"], []⟩ :=
  ⟨by decide, by decide, by decide⟩

/-- Witness for C2 at a concrete input: a live push of one file into an
empty destination returns the same plan as the corresponding dry run. -/
theorem claim_C2_witness :
    (⟨["a"], []⟩ : SyncPlan) =
      ⟨plannedCopies [] [] [("a", 2)],
       if false then plannedDeletes [] (seenKeys [("a", 2)] []) [] else []⟩ :=
  claim_C2.2.1 ⟨[("a", 2)], []⟩ ⟨[], []⟩ [] false ⟨["a"], []⟩ ⟨[("a", 2)], []⟩
    [TraceOp.copyOp "a"] (by decide)

/-- Claim C5 (amended): running sync twice with `delete=true`,
`dry_run=false` and an unchanged source yields the empty plan on the second
run — for S3 pull whenever the first run completes, for S3 push whenever
the local walk yields distinct paths (always true of a real walk), and for
local sync additionally provided the source tree is well-formed (distinct
paths, no source path lying under another source path) and no source path
is an existing *directory* on the destination.  Without that last proviso
the claim fails: `shutil.copy2` onto a destination directory drops the file
*inside* it, so the same copy and a delete reappear on every run (see the
counterexample). -/
theorem claim_C5 :
    (∀ (src dst : FS) (ig : List String) (p1 : SyncPlan) (st : FS) (tr : List TraceOp),
      (src.files.map Prod.fst).Nodup →
      (∀ e ∈ src.files, ∀ e' ∈ src.files, e.1 ∉ dirChain e'.1) →
      (∀ e ∈ src.files, memStr e.1 dst.dirs = false) →
      localSyncCore src dst ig true false = Except.ok (p1, st, tr) →
      localSyncCore src st ig true false = Except.ok (⟨[], []⟩, st, [])) ∧
    (∀ (bucket : Bucket) (lf : FS) (ig : List String) (p1 : SyncPlan) (b2 : Bucket)
        (tr : List TraceOp),
      (lf.files.map Prod.fst).Nodup →
      s3Push bucket lf ig true false = (p1, b2, tr) →
      s3Push b2 lf ig true false = (⟨[], []⟩, b2, [])) ∧
    (∀ (bucket : Bucket) (lf : FS) (ig : List String) (p1 : SyncPlan) (l2 : FS)
        (tr : List TraceOp),
      s3Pull bucket lf ig true false = Except.ok (p1, l2, tr) →
      s3Pull bucket l2 ig true false = Except.ok (⟨[], []⟩, l2, [])) := by
  refine ⟨?_, ?_, ?_⟩
  · -- local sync
    intro src dst ig p1 st tr hnd hpf hdirs h
    rcases localSyncCore_live_ok h with ⟨dst1, hw, -, hst, -⟩
    have hst' : st =
        (plannedDeletes ig (seenKeys src.files ig) dst.files).foldl fsRemove dst1 := by
      rw [hst, if_pos rfl]
    rcases localWalk_live_nice hnd hpf hdirs hw with ⟨-, i2, i3⟩
    have F1 : ∀ e ∈ src.files, is_ignored e.1 ig = false →
        lookupRel dst1.files e.1 = some e.2 := by
      intro e he hig
      rw [i2 e he hig]
      by_cases hcc : copyCond dst.files e.1 e.2
      · simp [hcc]
      · have hcc' : copyCond dst.files e.1 e.2 = false := by
          cases hb : copyCond dst.files e.1 e.2 with
          | false => rfl
          | true => exact absurd hb hcc
        rw [hcc']
        simp only [Bool.false_eq_true, if_false]
        exact copyCond_false hcc'
    have F3 : ∀ e ∈ src.files, is_ignored e.1 ig = false →
        memStr e.1 (plannedDeletes ig (seenKeys src.files ig) dst.files) = false := by
      intro e he hig
      cases hb : memStr e.1 (plannedDeletes ig (seenKeys src.files ig) dst.files) with
      | false => rfl
      | true =>
        rw [memStr_iff] at hb
        rcases mem_plannedDeletes hb with ⟨hs, -, -⟩
        rw [mem_seenKeys he hig] at hs
        cases hs
    have F4 : ∀ e ∈ src.files, is_ignored e.1 ig = false →
        lookupRel st.files e.1 = some e.2 := by
      intro e he hig
      rw [hst', foldl_fsRemove_files,
        lookupRel_filterKey
          (p := fun k => !memStr k (plannedDeletes ig (seenKeys src.files ig) dst.files)),
        if_pos (by rw [F3 e he hig]; rfl)]
      exact F1 e he hig
    have hwalk2 : localWalk st.files ig false src.files st = Except.ok ([], st, []) :=
      localWalk_pass (fun e he hig => copyCond_of_lookup (F4 e he hig))
    have hds2 : plannedDeletes ig (seenKeys src.files ig) st.files = [] := by
      apply plannedDeletes_nil
      intro m hm
      have hm1 : m ∈ dst1.files ∧
          memStr m.1 (plannedDeletes ig (seenKeys src.files ig) dst.files) = false := by
        rw [hst', foldl_fsRemove_files] at hm
        rcases List.mem_filter.mp hm with ⟨hma, hmb⟩
        exact ⟨hma, by simpa using hmb⟩
      by_cases hmig : is_ignored m.1 ig = true
      · exact Or.inr hmig
      · have hmig' : is_ignored m.1 ig = false := by
          cases hb : is_ignored m.1 ig with
          | false => rfl
          | true => exact absurd hb hmig
        left
        rcases i3 m hm1.1 with hcase | hcase
        · cases hb : memStr m.1 (seenKeys src.files ig) with
          | true => rfl
          | false =>
            have hmem := mem_plannedDeletes_of hcase hb hmig'
            exact absurd hmem (memStr_eq_false.mp hm1.2)
        · obtain ⟨e, he, hee⟩ := List.mem_map.mp hcase.2
          have hig : is_ignored e.1 ig = false := by rw [hee]; exact hcase.1
          have := mem_seenKeys he hig
          rw [hee] at this
          exact this
    simp only [localSyncCore, Bind.bind, Except.bind]
    rw [hwalk2]
    simp [deletePass_spec, hds2]
  · -- S3 push
    intro bucket lf ig p1 b2 tr hnd h
    rw [s3Push_live] at h
    simp only [Prod.mk.injEq] at h
    obtain ⟨-, h2, -⟩ := h
    rw [if_pos trivial] at h2
    have hLCnd : ((lf.files.filter
        (fun e => !is_ignored e.1 ig && copyCond bucket e.1 e.2)).map Prod.fst).Nodup :=
      ((lf.files.filter_sublist).map Prod.fst).nodup hnd
    have F1 : ∀ e ∈ lf.files, is_ignored e.1 ig = false →
        lookupRel (pushApply (lf.files.filter
          (fun e => !is_ignored e.1 ig && copyCond bucket e.1 e.2)) bucket) e.1 =
          some e.2 := by
      intro e he hig
      by_cases hcc : copyCond bucket e.1 e.2
      · exact foldl_setFile_lookup_mem hLCnd
          (List.mem_filter.mpr ⟨he, by simp [hig, hcc]⟩) bucket
      · have hcc' : copyCond bucket e.1 e.2 = false := by
          cases hb : copyCond bucket e.1 e.2 with
          | false => rfl
          | true => exact absurd hb hcc
        have hnomem : e.1 ∉ (lf.files.filter
            (fun e => !is_ignored e.1 ig && copyCond bucket e.1 e.2)).map Prod.fst := by
          intro hmem
          obtain ⟨m, hm, hme⟩ := List.mem_map.mp hmem
          rcases List.mem_filter.mp hm with ⟨hm1, hm2⟩
          simp only [Bool.and_eq_true] at hm2
          have : m = e :=
            List.inj_on_of_nodup_map hnd hm1 he hme
          rw [this] at hm2
          rw [hm2.2] at hcc'
          cases hcc'
        rw [foldl_setFile_lookup_not_mem hnomem]
        exact copyCond_false hcc'
    have F3 : ∀ e ∈ lf.files, is_ignored e.1 ig = false →
        memStr e.1 (plannedDeletes ig (seenKeys lf.files ig) bucket) = false := by
      intro e he hig
      cases hb : memStr e.1 (plannedDeletes ig (seenKeys lf.files ig) bucket) with
      | false => rfl
      | true =>
        rw [memStr_iff] at hb
        rcases mem_plannedDeletes hb with ⟨hs, -, -⟩
        rw [mem_seenKeys he hig] at hs
        cases hs
    have F4 : ∀ e ∈ lf.files, is_ignored e.1 ig = false →
        lookupRel b2 e.1 = some e.2 := by
      intro e he hig
      rw [← h2, foldl_bucketRemove,
        lookupRel_filterKey
          (p := fun k => !memStr k (plannedDeletes ig (seenKeys lf.files ig) bucket)),
        if_pos (by rw [F3 e he hig]; rfl)]
      exact F1 e he hig
    have hfil2 : lf.files.filter
        (fun e => !is_ignored e.1 ig && copyCond b2 e.1 e.2) = [] := by
      apply List.filter_eq_nil_iff.mpr
      intro e he
      by_cases hig : is_ignored e.1 ig = true
      · simp [hig]
      · have hig' : is_ignored e.1 ig = false := by
          cases hb : is_ignored e.1 ig with
          | false => rfl
          | true => exact absurd hb hig
        simp [hig', copyCond_of_lookup (F4 e he hig')]
    have hds2 : plannedDeletes ig (seenKeys lf.files ig) b2 = [] := by
      apply plannedDeletes_nil
      intro m hm
      have hm1 : m ∈ pushApply (lf.files.filter
          (fun e => !is_ignored e.1 ig && copyCond bucket e.1 e.2)) bucket ∧
          memStr m.1 (plannedDeletes ig (seenKeys lf.files ig) bucket) = false := by
        rw [← h2, foldl_bucketRemove] at hm
        rcases List.mem_filter.mp hm with ⟨hma, hmb⟩
        exact ⟨hma, by simpa using hmb⟩
      by_cases hmig : is_ignored m.1 ig = true
      · exact Or.inr hmig
      · have hmig' : is_ignored m.1 ig = false := by
          cases hb : is_ignored m.1 ig with
          | false => rfl
          | true => exact absurd hb hmig
        left
        rcases mem_pushApply bucket hm1.1 with hcase | hcase
        · cases hb : memStr m.1 (seenKeys lf.files ig) with
          | true => rfl
          | false =>
            have hmem := mem_plannedDeletes_of hcase hb hmig'
            exact absurd hmem (memStr_eq_false.mp hm1.2)
        · obtain ⟨m', hm', hme⟩ := List.mem_map.mp hcase
          rcases List.mem_filter.mp hm' with ⟨hm'1, hm'2⟩
          simp only [Bool.and_eq_true] at hm'2
          have hig2 : is_ignored m'.1 ig = false := by simpa using hm'2.1
          have := mem_seenKeys hm'1 hig2
          rw [hme] at this
          exact this
    rw [s3Push_live]
    have hplanned : plannedCopies b2 ig lf.files = [] := by
      unfold plannedCopies
      rw [hfil2]
      rfl
    rw [hplanned, hfil2, hds2]
    simp [pushApply]
  · -- S3 pull
    intro bucket lf ig p1 l2 tr h
    rcases s3Pull_live_ok h with ⟨cs, lfs1, tr1, hw, -, hst, -⟩
    have hst' : l2 =
        (plannedDeletes ig (seenKeys bucket ig) lfs1.files).foldl fsRemove lfs1 := by
      rw [hst, if_pos rfl]
    rcases pullWalk_live_post hw with ⟨-, cover, -⟩
    have hex2 : ∀ e ∈ bucket, is_ignored e.1 ig = false → fsExists l2 e.1 = true := by
      intro e he hig
      have h1 := cover e he hig
      rw [hst']
      rcases Bool.or_eq_true_iff.mp h1 with hf | hd
      · have hnotds : memStr e.1
            (plannedDeletes ig (seenKeys bucket ig) lfs1.files) = false := by
          cases hb : memStr e.1 (plannedDeletes ig (seenKeys bucket ig) lfs1.files) with
          | false => rfl
          | true =>
            rw [memStr_iff] at hb
            rcases mem_plannedDeletes hb with ⟨hs, -, -⟩
            rw [mem_seenKeys he hig] at hs
            cases hs
        apply Bool.or_eq_true_iff.mpr
        left
        show (lookupRel ((plannedDeletes ig (seenKeys bucket ig)
          lfs1.files).foldl fsRemove lfs1).files e.1).isSome = true
        rw [foldl_fsRemove_files,
          lookupRel_filterKey
            (p := fun k => !memStr k (plannedDeletes ig (seenKeys bucket ig) lfs1.files)),
          if_pos (by rw [hnotds]; rfl)]
        exact hf
      · apply Bool.or_eq_true_iff.mpr
        right
        show memStr e.1 ((plannedDeletes ig (seenKeys bucket ig)
          lfs1.files).foldl fsRemove lfs1).dirs = true
        rw [foldl_fsRemove_dirs]
        exact hd
    have hwalk2 : pullWalk ig false bucket l2 = Except.ok ([], l2, []) :=
      pullWalk_pass hex2
    have hds2 : plannedDeletes ig (seenKeys bucket ig) l2.files = [] := by
      apply plannedDeletes_nil
      intro m hm
      have hm1 : m ∈ lfs1.files ∧
          memStr m.1 (plannedDeletes ig (seenKeys bucket ig) lfs1.files) = false := by
        rw [hst', foldl_fsRemove_files] at hm
        rcases List.mem_filter.mp hm with ⟨hma, hmb⟩
        exact ⟨hma, by simpa using hmb⟩
      by_cases hmig : is_ignored m.1 ig = true
      · exact Or.inr hmig
      · have hmig' : is_ignored m.1 ig = false := by
          cases hb : is_ignored m.1 ig with
          | false => rfl
          | true => exact absurd hb hmig
        left
        cases hb : memStr m.1 (seenKeys bucket ig) with
        | true => rfl
        | false =>
          have hmem := mem_plannedDeletes_of hm1.1 hb hmig'
          exact absurd hmem (memStr_eq_false.mp hm1.2)
    simp only [s3Pull, Bind.bind, Except.bind]
    rw [hwalk2]
    simp [deletePass_spec, hds2]

/-- Counterexample to C5 as stated: the source holds the file `a`, the
destination holds the directory `a` (with some file inside).  Every run
classifies `a` as copy — `shutil.copy2` silently writes `a/a` inside the
directory instead — and then deletes `a/a`, so the second (and every later)
run still returns a non-empty plan. -/
theorem claim_C5_counterexample :
    localSyncCore ⟨[("a", 1)], []⟩ ⟨[("a/x", 1)], ["a"]⟩ [] true false =
      Except.ok (⟨["a"], ["a/x"]⟩, ⟨[("a/a", 1)], ["a"]⟩,
        [TraceOp.copyOp "a", TraceOp.deleteOp "a/x"]) ∧
    localSyncCore ⟨[("a", 1)], []⟩ ⟨[("a/a", 1)], ["a"]⟩ [] true false =
      Except.ok (⟨["a"], ["a/a"]⟩, ⟨[], ["a"]⟩,
        [TraceOp.copyOp "a", TraceOp.deleteOp "a/a"]) ∧
    (⟨["a"], ["a/a"]⟩ : SyncPlan) ≠ ⟨[], []⟩ :=
  ⟨by decide, by decide, by decide⟩

/-- Witness for C5 at a concrete input: after pushing one file into an
empty destination, a second run with `delete=true` returns the empty
plan. -/
theorem claim_C5_witness :
    localSyncCore ⟨[("a", 1)], []⟩ ⟨[("a", 1)], []⟩ [] true false =
      Except.ok (⟨[], []⟩, ⟨[("a", 1)], []⟩, []) :=
  claim_C5.1 ⟨[("a", 1)], []⟩ ⟨[], []⟩ [] ⟨["a"], []⟩ ⟨[("a", 1)], []⟩
    [TraceOp.copyOp "a"] (by decide) (by decide) (by decide) (by decide)

example : fnmatch "run.log" "*.log" = true := by decide
example : fnmatch "a/" "?/" = true := by decide
example : fnmatch "a/b.txt" "a/b.txt" = true := by decide
example : fnmatch "b.txt" "*.log" = false := by decide
example : fnmatch "ab" "a[b-d]" = true := by decide
example : fnmatch "ae" "a[b-d]" = false := by decide
example : fnmatch "ae" "a[!b-d]" = true := by decide
example : is_ignored "build/out.bin" ["*.log", "build/"] = true := by decide
example : is_ignored "keep.txt" ["*.log", "build/"] = false := by decide
